import Mathlib

/-!
# Verification of the XMS metadata parser (openxms/typescript)

Shallow embedding of `src/src/types/index.ts` (class `XMSDoc`): the version
dispatcher, strict tokenizer, legacy (CommonMeta) tokenizer, value coercer,
limit enforcer, nested assigner and serializer, together with theorems about
the behaviour the specification claims.

Strings are modelled as `List Char`.  JavaScript `trim` / `toLowerCase` are
modelled over the ASCII range (the inputs of interest are ASCII); numbers
produced by `Number(raw)` are modelled as a tagged copy of the raw digits,
which is faithful for every claim considered here (none compares numeric
values).  Callback options (`onWarning`, `numberPredicate`,
`transformBareToken`) are modelled as absent, matching the default
configuration; `transformBareToken` is in fact never read by the source.
The `defer` option is modelled as `false` (its default): construction parses
immediately, which is the behaviour every claim here concerns.
-/

namespace XMS

abbrev Str := List Char

/-- JavaScript whitespace for `trim` (ASCII fragment). -/
def isWS (c : Char) : Bool := c = ' ' ∨ c = '\t' ∨ c = '\n' ∨ c = '\r'

/-- `String.prototype.trim`. -/
def trimList (s : Str) : Str :=
  ((s.dropWhile isWS).reverse.dropWhile isWS).reverse

/-- `String.prototype.toLowerCase`, ASCII fragment. -/
def lowerChar (c : Char) : Char :=
  if 'A' ≤ c ∧ c ≤ 'Z' then Char.ofNat (c.toNat + 32) else c

def lowerStr (s : Str) : Str := s.map lowerChar

/-- One character of `KEY_PATTERN = /^[a-z0-9_.]+$/` (line 114). -/
def isKeyChar (c : Char) : Bool :=
  ('a' ≤ c ∧ c ≤ 'z') ∨ ('0' ≤ c ∧ c ≤ '9') ∨ c = '_' ∨ c = '.'

/-- `KEY_PATTERN.test` (line 114): one or more of `[a-z0-9_.]`. -/
def keyPattern (s : Str) : Bool := ¬ s.isEmpty ∧ s.all isKeyChar

/-- `XMSRawEntry` (lines 46-49). -/
structure RawEntry where
  name : Str
  value : Option Str
deriving DecidableEq, Repr

/-- `InternalState` (lines 84-87). -/
structure InternalState where
  warnings : List Str
  errors : List Str
deriving DecidableEq, Repr

/-- `XMSValue` as produced at runtime: primitives and (ordered) object nodes.
Arrays never arise on the parsing paths verified here (the tokenizers only
produce primitives, and nested assignment only creates plain objects), so the
object constructor over an ordered association list suffices.  A numeric value
keeps the raw digits it was coerced from. -/
inductive XMSValue where
  | nullV : XMSValue
  | boolV (b : Bool) : XMSValue
  | numV (raw : Str) : XMSValue
  | strV (s : Str) : XMSValue
  | objV (fields : List (Str × XMSValue)) : XMSValue

abbrev Fields := List (Str × XMSValue)

/-- Runtime-relevant parse options with the merged defaults of
`DEFAULT_OPTIONS` (lines 116-137). -/
structure ParseOptions where
  coerceBooleans : Bool := true
  coerceNumbers : Bool := false
  enforceLimits : Bool := true
  maxNestingDepth : Nat := 5
  createFlatKeys : Bool := false
  createNestedKeys : Bool := true
  keepInvalidKeys : Bool := true
  reparseOnFallback : Bool := true
  overwriteScalarsForNested : Bool := false
  customBooleanLiterals : List (Str × Bool) := []
deriving DecidableEq, Repr

def defaultOptions : ParseOptions := {}

/-! ## Strict tokenizer: token-boundary scan (`parseXMSCore`, lines 518-543)

The inner `for` loop of `parseXMSCore` scans for the end of one token,
tracking `inQuote` and `esc`.  `scanToken s inQuote esc` returns the scanned
token text, the remaining input (beginning with the terminating `;` when one
was found), and the final `inQuote` flag. -/

def scanToken : Str → Bool → Bool → Str × Str × Bool
  | [], inQuote, _ => ([], [], inQuote)
  | c :: rest, inQuote, esc =>
    if esc then
      let r := scanToken rest inQuote false
      (c :: r.1, r.2.1, r.2.2)
    else if c = '\\' then
      let r := scanToken rest inQuote true
      (c :: r.1, r.2.1, r.2.2)
    else if c = '"' then
      let r := scanToken rest (!inQuote) false
      (c :: r.1, r.2.1, r.2.2)
    else if c = ';' ∧ ¬ inQuote then
      ([], c :: rest, inQuote)
    else
      let r := scanToken rest inQuote false
      (c :: r.1, r.2.1, r.2.2)

/-- Quote-aware search for the first key/value separator `=` inside a token
(lines 550-573).  Returns the parts before and after the separator. -/
def findEq : Str → Bool → Bool → Option (Str × Str)
  | [], _, _ => none
  | c :: rest, q, e =>
    if e then (findEq rest q false).map fun p => (c :: p.1, p.2)
    else if c = '\\' then (findEq rest q true).map fun p => (c :: p.1, p.2)
    else if c = '"' then (findEq rest (!q) false).map fun p => (c :: p.1, p.2)
    else if c = '=' ∧ ¬ q then some ([], rest)
    else (findEq rest q false).map fun p => (c :: p.1, p.2)

/-- Unescaping of the interior of a quoted value (lines 595-613): a backslash
copies the following character verbatim; a trailing backslash is the fatal
"Dangling backslash." case, reported as `none`. -/
def unescapeValue : Str → Option Str
  | [] => some []
  | c :: rest =>
    if c = '\\' then
      match rest with
      | [] => none
      | d :: rest2 => (unescapeValue rest2).map (d :: ·)
    else (unescapeValue rest).map (c :: ·)

def unterminatedMsg : Str := "Unterminated quote; fallback.".toList
def malformedQuotedMsg : Str := "Malformed quoted value.".toList
def danglingMsg : Str := "Dangling backslash.".toList

def invalidKeyMsg (originalKey : Str) : Str :=
  "Invalid key pattern for \"".toList ++ originalKey ++ "\" (accepted).".toList

/-- Per-token key/value extraction of `parseXMSCore` (lines 550-628).
Returns the warnings pushed while handling this token, and either the thrown
error message (`.error`, the `throw new Error("Malformed quotes")` sites) or
the produced entry (`none` when an invalid-key entry is discarded under
`keepInvalidKeys = false`). -/
def processToken (opts : ParseOptions) (token : Str) :
    List Str × Except Str (Option RawEntry) :=
  let split := findEq token false false
  let key0 : Str := match split with
    | none => token
    | some p => trimList p.1
  let valuePart : Option Str := match split with
    | none => none
    | some p => let v := trimList p.2; if v = [] then none else some v
  let key := lowerStr key0
  let finish : Option Str → List Str × Except Str (Option RawEntry) := fun fv =>
    if keyPattern key then ([], .ok (some ⟨key, fv⟩))
    else if opts.keepInvalidKeys then ([invalidKeyMsg key0], .ok (some ⟨key, fv⟩))
    else ([], .ok none)
  match valuePart with
  | none => finish none
  | some vp =>
    if vp.head? = some '"' then
      if vp.length < 2 ∨ vp.getLast? ≠ some '"' then
        ([], .error malformedQuotedMsg)
      else
        match unescapeValue ((vp.drop 1).dropLast) with
        | none => ([], .error danglingMsg)
        | some inner => finish (some inner)
    else finish (some vp)

/-- The `while` loop of `parseXMSCore` (lines 514-631), with explicit fuel
(one unit per loop iteration; each iteration consumes at least one input
character, so `body.length + 1` units always suffice — see
`parseXMSCoreGo_fuel`).  Returns the updated state and `some entries` on
success, or `none` for the thrown `Error("Malformed quotes")`. -/
def parseXMSCoreGo (opts : ParseOptions) :
    Nat → Str → InternalState → InternalState × Option (List RawEntry)
  | 0, _, st => (st, some [])
  | fuel + 1, body, st =>
    let s := body.dropWhile (· = ';')
    if s.isEmpty then (st, some [])
    else
      let r := scanToken s false false
      if r.2.2 then
        ({ st with errors := st.errors ++ [unterminatedMsg] }, none)
      else
        let token := trimList r.1
        let rest := match r.2.1 with
          | ';' :: t => t
          | t => t
        if token.isEmpty then parseXMSCoreGo opts fuel rest st
        else
          let pr := processToken opts token
          let st' := { st with warnings := st.warnings ++ pr.1 }
          match pr.2 with
          | .error msg => ({ st' with errors := st'.errors ++ [msg] }, none)
          | .ok none => parseXMSCoreGo opts fuel rest st'
          | .ok (some e) =>
            let rec' := parseXMSCoreGo opts fuel rest st'
            (rec'.1, rec'.2.map (e :: ·))

/-- `parseXMSCore` (lines 514-631). -/
def parseXMSCore (opts : ParseOptions) (body : Str) (st : InternalState) :
    InternalState × Option (List RawEntry) :=
  parseXMSCoreGo opts (body.length + 1) body st

/-! ## Legacy (CommonMeta) tokenizer (`parseCommonMeta`, lines 633-673) -/

/-- The accumulator loop of lines 637-648: split on `;`, keeping only
non-empty segments. -/
def splitTokens : Str → Str → List Str
  | [], cur => if cur.isEmpty then [] else [cur]
  | c :: rest, cur =>
    if c = ';' then
      if cur.isEmpty then splitTokens rest [] else cur :: splitTokens rest []
    else splitTokens rest (cur ++ [c])

/-- `String.prototype.indexOf("=")` as a split at the first `=`. -/
def splitAtFirstEq : Str → Option (Str × Str)
  | [] => none
  | c :: rest =>
    if c = '=' then some ([], rest)
    else (splitAtFirstEq rest).map fun p => (c :: p.1, p.2)

def invalidKeyFallbackMsg (key : Str) : Str :=
  "Invalid key pattern for \"".toList ++ key ++ "\" (kept in fallback).".toList

/-- Per-token handling of `parseCommonMeta` (lines 650-671): warnings pushed
plus the produced entry (`none` when the token is blank or discarded). -/
def legacyToken (opts : ParseOptions) (t : Str) : List Str × Option RawEntry :=
  let raw := trimList t
  if raw.isEmpty then ([], none)
  else
    let kv : Str × Option Str := match splitAtFirstEq raw with
      | none => (lowerStr raw, some [])
      | some p =>
        let right := trimList p.2
        (lowerStr (trimList p.1), if right.isEmpty then none else some right)
    if keyPattern kv.1 then ([], some ⟨kv.1, kv.2⟩)
    else if opts.keepInvalidKeys then ([invalidKeyFallbackMsg kv.1], some ⟨kv.1, kv.2⟩)
    else ([], none)

/-- One `for (const tk of toks)` iteration of `parseCommonMeta`
(lines 650-671), accumulating warnings into the state and entries into
`out`. -/
def legacyStep (opts : ParseOptions) (acc : InternalState × List RawEntry)
    (t : Str) : InternalState × List RawEntry :=
  let r := legacyToken opts t
  ({ acc.1 with warnings := acc.1.warnings ++ r.1 }, acc.2 ++ r.2.toList)

/-- `parseCommonMeta` (lines 633-673). -/
def parseCommonMeta (opts : ParseOptions) (input : Str) (st : InternalState) :
    InternalState × List RawEntry :=
  (splitTokens input []).foldl (legacyStep opts) (st, [])

/-! ## Value coercer (`coerceValue`, lines 441-463) -/

/-- One-or-more decimal digits: consume them, failing on zero digits. -/
def digits1 (s : Str) : Option Str :=
  if (s.takeWhile Char.isDigit).isEmpty then none else some (s.dropWhile Char.isDigit)

/-- The numeric pattern `/^-?(?:\d+)(?:\.\d+)?(?:[eE][+-]?\d+)?$/` (line 456). -/
def numberLike (s : Str) : Bool :=
  let s0 := match s with
    | '-' :: r => r
    | r => r
  match digits1 s0 with
  | none => false
  | some s1 =>
    let afterFrac : Option Str := match s1 with
      | '.' :: r => digits1 r
      | r => some r
    match afterFrac with
    | none => false
    | some s2 =>
      let afterExp : Option Str := match s2 with
        | [] => some []
        | c :: r =>
          if c = 'e' ∨ c = 'E' then
            match r with
            | [] => none
            | d :: r2 => if d = '+' ∨ d = '-' then digits1 r2 else digits1 (d :: r2)
          else some (c :: r)
      match afterExp with
      | none => false
      | some s3 => s3.isEmpty

/-- `coerceValue` (lines 441-463).  A numeric-pattern match always yields a
non-NaN JavaScript number, modelled as `numV` of the raw digits; the optional
`numberPredicate` is modelled as absent (the default). -/
def coerceValue (opts : ParseOptions) (raw : Option Str) : XMSValue :=
  match raw with
  | none => .nullV
  | some s =>
    let lower := lowerStr s
    let rest : XMSValue :=
      if opts.coerceNumbers ∧ numberLike s then .numV s else .strV s
    if opts.coerceBooleans then
      if lower = "true".toList then .boolV true
      else if lower = "false".toList then .boolV false
      else
        match opts.customBooleanLiterals.find? fun p => lowerStr p.1 = lower with
        | some p => .boolV p.2
        | none => rest
    else rest

/-! ## Limit enforcer (`enforceLength`, lines 425-439) -/

/-- Decimal digits of a natural number, with explicit fuel (the number itself
suffices: `natDigitsGo_spec`). -/
def natDigitsGo : Nat → Nat → Str
  | 0, _ => []
  | fuel + 1, n =>
    if n < 10 then [Char.ofNat (48 + n)]
    else natDigitsGo fuel (n / 10) ++ [Char.ofNat (48 + n % 10)]

/-- `String(n)` for a non-negative integer. -/
def natDigits (n : Nat) : Str := natDigitsGo (n + 1) n

def truncMsg (key : Str) (limit : Nat) : Str :=
  "Value for key \"".toList ++ key ++ "\" exceeded limit ".toList ++
    natDigits limit ++ " and was truncated.".toList

/-- The fixed limit table of `enforceLength` (lines 430-433). -/
def limitFor (key : Str) : Option Nat :=
  if key = "username".toList then some 16
  else if key = "message".toList ∨ key = "error.message".toList ∨ key = "error".toList
    then some 255
  else none

/-- `enforceLength` (lines 425-439): the possibly-truncated value and the
warning, if one was emitted. -/
def enforceLength (key value : Str) : Str × Option Str :=
  match limitFor key with
  | some limit =>
    if limit < value.length then (value.take limit, some (truncMsg key limit))
    else (value, none)
  | none => (value, none)

/-! ## Nested assigner (`assignNested`, lines 465-512) -/

/-- Object-property read (`cur[seg]`; `undefined` is `none`). -/
def getA (m : Fields) (k : Str) : Option XMSValue :=
  (m.find? fun p => p.1 = k).map (·.2)

/-- Object-property write: in-place update when the key exists (JavaScript
preserves insertion order), append otherwise. -/
def setA (m : Fields) (k : Str) (v : XMSValue) : Fields :=
  if m.any fun p => p.1 = k then
    m.map fun p => if p.1 = k then (k, v) else p
  else m ++ [(k, v)]

/-- The segment walk of `assignNested` (lines 486-511).  `.error seg` models
the warn-and-return path taken when, without the override option, an existing
non-object value is found at intermediate segment `seg`; in the source this
returns before any mutation, so the functional reading (no partial update) is
exact. -/
def walkAssign (overwrite : Bool) (obj : Fields) :
    List Str → XMSValue → Except Str Fields
  | [], _ => .ok obj
  | [seg], v => .ok (setA obj seg v)
  | seg :: seg' :: rest, v =>
    match getA obj seg with
    | some (.objV child) =>
      (walkAssign overwrite child (seg' :: rest) v).map fun c => setA obj seg (.objV c)
    | some _ =>
      if overwrite then
        (walkAssign overwrite [] (seg' :: rest) v).map fun c => setA obj seg (.objV c)
      else .error seg
    | none =>
      (walkAssign overwrite [] (seg' :: rest) v).map fun c => setA obj seg (.objV c)

/-- `String.prototype.split(".")` — keeps empty segments, `"" ↦ [""]`. -/
def splitDots : Str → Str → List Str
  | [], cur => [cur]
  | c :: rest, cur =>
    if c = '.' then cur :: splitDots rest [] else splitDots rest (cur ++ [c])

def splitDotsTop (s : Str) : List Str := splitDots s []

def depthMsg (key : Str) (limit : Nat) : Str :=
  "Key \"".toList ++ key ++ "\" exceeds max nesting depth (".toList ++
    natDigits limit ++ "); nested object not created.".toList

def skipMsg (key seg : Str) : Str :=
  "Skipping nested creation for \"".toList ++ key ++
    "\" due to existing non-object at segment \"".toList ++ seg ++ "\".".toList

/-- The `cfg` record passed by `ingest` (lines 247-252). -/
structure AssignCfg where
  maxNestingDepth : Nat
  createFlatKeys : Bool
  createNestedKeys : Bool
deriving DecidableEq, Repr

/-- `assignNested` (lines 465-512): updated root object plus warnings. -/
def assignNested (overwrite : Bool) (root : Fields) (key : Str) (value : XMSValue)
    (cfg : AssignCfg) : Fields × List Str :=
  let root1 := if cfg.createFlatKeys then setA root key value else root
  if ¬ cfg.createNestedKeys then (root1, [])
  else
    let segs := splitDotsTop key
    if segs.any (·.isEmpty) then (root1, [])
    else if cfg.maxNestingDepth < segs.length then
      (root1, [depthMsg key cfg.maxNestingDepth])
    else
      match walkAssign overwrite root1 segs value with
      | .ok r => (r, [])
      | .error seg => (root1, [skipMsg key seg])

/-! ## Ingestion (`ingest`, lines 235-256) -/

/-- The per-entry truncation step of `ingest` (lines 238-241): the entry as it
is rewritten in place, plus any truncation warning. -/
def truncEntry (opts : ParseOptions) (e : RawEntry) : RawEntry × List Str :=
  match e.value with
  | some v =>
    if opts.enforceLimits then
      let r := enforceLength e.name v
      (⟨e.name, some r.1⟩, r.2.toList)
    else (e, [])
  | none => (e, [])

/-- One iteration of the `ingest` loop (lines 236-255). -/
def ingestEntry (opts : ParseOptions) (data : Fields) (e : RawEntry) :
    RawEntry × Fields × List Str :=
  let t := truncEntry opts e
  let coerced := coerceValue opts t.1.value
  let a := assignNested opts.overwriteScalarsForNested data e.name coerced
    ⟨opts.maxNestingDepth, opts.createFlatKeys, opts.createNestedKeys⟩
  (t.1, a.1, t.2 ++ a.2)

/-- `ingest` (lines 235-256): final entry log (values rewritten in place by
the limit enforcer), resulting data object, and ingestion warnings in order. -/
def ingest (opts : ParseOptions) : List RawEntry → Fields →
    List RawEntry × Fields × List Str
  | [], data => ([], data, [])
  | e :: es, data =>
    let r := ingestEntry opts data e
    let rest := ingest opts es r.2.1
    (r.1 :: rest.1, rest.2.1, r.2.2 ++ rest.2.2)

/-! ## The Document and the version dispatcher (`parse`, lines 258-297) -/

/-- The aggregate `XMSDoc` result fields (lines 184-189). -/
structure XMSDoc where
  version : Nat
  isFallback : Bool
  entries : List RawEntry
  data : Fields
  warnings : List Str
  errors : List Str

/-- `parseInt(m[1], 10)` over a captured digit run. -/
def parseDigits (ds : Str) : Nat :=
  ds.foldl (fun a c => a * 10 + (c.toNat - 48)) 0

/-- The regex `/^xms\/(\d+)/` of `parse` (line 272): literal `xms/` followed
by one or more digits; the remainder after the digit run is the strict body.
Note the regex does not require a `;` (unlike `isProbablyXMS`, line 328). -/
def matchVersionHeader (s : Str) : Option (Nat × Str) :=
  match s with
  | 'x' :: 'm' :: 's' :: '/' :: rest =>
    if (rest.takeWhile Char.isDigit).isEmpty then none
    else some (parseDigits (rest.takeWhile Char.isDigit), rest.dropWhile Char.isDigit)
  | _ => none

/-- Lines 293-296: run `ingest` over the chosen entry log and assemble the
document (ingestion warnings are pushed onto the tokenizer state's warning
list by the `warn` closure of lines 266-269). -/
def finishDoc (opts : ParseOptions) (version : Nat) (isFallback : Bool)
    (es : List RawEntry) (st : InternalState) : XMSDoc :=
  let r := ingest opts es []
  { version := version, isFallback := isFallback, entries := r.1, data := r.2.1,
    warnings := st.warnings ++ r.2.2, errors := st.errors }

/-- `XMSDoc.parse` / the constructor's parse pass (lines 258-297). -/
def parse (input : Str) (opts : ParseOptions) : XMSDoc :=
  match matchVersionHeader input with
  | some (v, body) =>
    match parseXMSCore opts body ⟨[], []⟩ with
    | (st, some es) => finishDoc opts v false es st
    | (st, none) =>
      if opts.reparseOnFallback then
        let r := parseCommonMeta opts input st
        finishDoc opts 0 true r.2 r.1
      else finishDoc opts 0 true [] st
  | none =>
    let r := parseCommonMeta opts input ⟨[], []⟩
    finishDoc opts 0 true r.2 r.1

/-- The constructor boundary (lines 194-200): a non-string input (`none`)
throws `TypeError("Input must be a string.")`; a string input parses. -/
def construct (input : Option Str) (opts : ParseOptions) : Except Str XMSDoc :=
  match input with
  | none => .error "Input must be a string.".toList
  | some s => .ok (parse s opts)

/-- `XMSDoc.safeParse` (lines 309-325): the catch arm builds the degraded
document of lines 319-323. -/
def safeParse (input : Option Str) (opts : ParseOptions) : XMSDoc :=
  match construct input opts with
  | .ok d => d
  | .error msg =>
    { version := 0, isFallback := true, entries := [], data := [],
      warnings := [], errors := ["Unexpected parser failure: ".toList ++ msg] }

/-- The explicit `version` / `isFallback` overrides accepted by
`XMSDoc.from` (lines 331-366). -/
structure FromOverrides where
  version : Option Nat := none
  isFallback : Option Bool := none
deriving DecidableEq, Repr

/-- The entries-array branch of `XMSDoc.from` (lines 390-406): version
defaults to `1`, fallback to `false`, names are lower-cased, and the shared
ingestion pipeline runs. -/
def fromEntries (source : List RawEntry) (opts : ParseOptions)
    (ov : FromOverrides) : XMSDoc :=
  let es := source.map fun e => RawEntry.mk (lowerStr e.name) e.value
  let r := ingest opts es []
  { version := ov.version.getD 1, isFallback := ov.isFallback.getD false,
    entries := r.1, data := r.2.1, warnings := r.2.2, errors := [] }

/-! ## Serializer (`toXMS`, lines 675-699) -/

/-- The quoting trigger `/[\s;="\\]/` (line 682). -/
def needsQuotes (v : Str) : Bool :=
  v.any fun c => isWS c ∨ c = ';' ∨ c = '=' ∨ c = '"' ∨ c = '\\'

/-- The escaping loop of lines 684-690: backslash-escape `"` and `\`. -/
def escapeQuoted (v : Str) : Str :=
  v.flatMap fun c => if c = '"' ∨ c = '\\' then ['\\', c] else [c]

/-- One serialized token (lines 677-693): `none` when the key fails
`KEY_PATTERN` and the entry is silently omitted. -/
def serializeEntry (e : RawEntry) : Option Str :=
  if ¬ keyPattern e.name then none
  else
    match e.value with
    | none => some e.name
    | some v =>
      if v.isEmpty then some (e.name ++ ['='])
      else if needsQuotes v then
        some (e.name ++ '=' :: '"' :: (escapeQuoted v ++ ['"']))
      else some (e.name ++ '=' :: v)

/-- `tokens.join(";")`. -/
def joinSemis : List Str → Str
  | [] => []
  | [t] => t
  | t :: t' :: ts => t ++ ';' :: joinSemis (t' :: ts)

/-- The canonical `xms/<version>;` header text. -/
def headerChars (v : Nat) : Str :=
  'x' :: 'm' :: 's' :: '/' :: (natDigits v ++ [';'])

/-- `toXMS` (lines 675-699). -/
def toXMS (d : XMSDoc) : Str :=
  let toks := d.entries.filterMap serializeEntry
  if d.version = 0 then joinSemis toks
  else if toks.isEmpty then headerChars d.version
  else headerChars d.version ++ joinSemis toks

/-! ## Lookup helper for theorem statements

Resolution of a dotted path segment-by-segment through object nodes, the
observable notion of "the final segment received the value". -/

def lookupPath (m : Fields) : List Str → Option XMSValue
  | [] => none
  | [seg] => getA m seg
  | seg :: seg' :: rest =>
    match getA m seg with
    | some (.objV child) => lookupPath child (seg' :: rest)
    | _ => none

/-- Whether the segment walk of `assignNested` meets an existing non-object
value at an intermediate segment before reaching the final segment (the
"scalar/object conflict" of the specification).  Mirrors the walk exactly:
once a segment is absent, every deeper segment is created fresh, so no
conflict can occur beyond that point. -/
def pathConflict (obj : Fields) : List Str → Bool
  | [] => false
  | [_] => false
  | seg :: seg' :: rest =>
    match getA obj seg with
    | some (.objV child) => pathConflict child (seg' :: rest)
    | some _ => true
    | none => false

/-! ## Reference token-boundary machine (for the amended claim C7)

A second, spec-side reading of the token-boundary scan, stated as an explicit
three-kinds-of-state machine: a token ends at the next `;` that is neither
inside quotes nor escaped; `"` toggles quoting unless escaped; `\` marks the
next character as escaped both inside and outside quotes.  `c7_amended`
proves the source scanner (`scanToken`) equal to this machine. -/

inductive ScanState where
  | normal
  | quoted
  | escNormal
  | escQuoted
deriving DecidableEq, Repr

def inQuoteOf : ScanState → Bool
  | .normal => false
  | .escNormal => false
  | .quoted => true
  | .escQuoted => true

/-- One transition: `none` means the scanned character terminates the token
(only an unescaped `;` in the unquoted state does). -/
def scanStep : ScanState → Char → Option ScanState
  | .escNormal, _ => some .normal
  | .escQuoted, _ => some .quoted
  | .normal, c =>
    if c = '\\' then some .escNormal
    else if c = '"' then some .quoted
    else if c = ';' then none
    else some .normal
  | .quoted, c =>
    if c = '\\' then some .escQuoted
    else if c = '"' then some .normal
    else some .quoted

def runScan : ScanState → Str → Str × Str × Bool
  | st, [] => ([], [], inQuoteOf st)
  | st, c :: rest =>
    match scanStep st c with
    | none => ([], c :: rest, inQuoteOf st)
    | some st' =>
      let r := runScan st' rest
      (c :: r.1, r.2.1, r.2.2)

def encodeState : Bool → Bool → ScanState
  | false, false => .normal
  | true, false => .quoted
  | false, true => .escNormal
  | true, true => .escQuoted

/-! ## Proof-side helper definitions -/

/-- The token-boundary scan restricted to its state effect: `none` when an
unquoted, unescaped `;` is encountered, otherwise the final `(inQuote, esc)`
pair after consuming the whole list. -/
def scanFree : Str → Bool → Bool → Option (Bool × Bool)
  | [], q, e => some (q, e)
  | c :: rest, q, e =>
    if e then scanFree rest q false
    else if c = '\\' then scanFree rest q true
    else if c = '"' then scanFree rest (!q) false
    else if c = ';' ∧ ¬ q then none
    else scanFree rest q false

/-- The entry log the legacy tokenizer emits, separated from its warning
side-effects. -/
def legacyEntries (opts : ParseOptions) (input : Str) : List RawEntry :=
  (splitTokens input []).flatMap fun t => (legacyToken opts t).2.toList

/-! # Basic lemmas -/

theorem legacyFold_entries (opts : ParseOptions) (toks : List Str)
    (st : InternalState) (es : List RawEntry) :
    (toks.foldl (legacyStep opts) (st, es)).2 =
      es ++ toks.flatMap fun t => (legacyToken opts t).2.toList := by
  induction toks generalizing st es with
  | nil => simp
  | cons t ts ih =>
    simp only [List.foldl_cons, List.flatMap_cons, legacyStep, ih,
      List.append_assoc]

theorem legacyFold_errors (opts : ParseOptions) (toks : List Str)
    (st : InternalState) (es : List RawEntry) :
    (toks.foldl (legacyStep opts) (st, es)).1.errors = st.errors := by
  induction toks generalizing st es with
  | nil => rfl
  | cons t ts ih => simp only [List.foldl_cons, legacyStep, ih]

theorem parseCommonMeta_entries (opts : ParseOptions) (input : Str)
    (st : InternalState) :
    (parseCommonMeta opts input st).2 = legacyEntries opts input := by
  simp [parseCommonMeta, legacyEntries, legacyFold_entries]

theorem parseCommonMeta_errors (opts : ParseOptions) (input : Str)
    (st : InternalState) :
    (parseCommonMeta opts input st).1.errors = st.errors :=
  legacyFold_errors opts _ st []

theorem ingest_entries (opts : ParseOptions) (es : List RawEntry)
    (data : Fields) :
    (ingest opts es data).1 = es.map fun e => (truncEntry opts e).1 := by
  induction es generalizing data with
  | nil => rfl
  | cons e es ih => simp only [ingest, ingestEntry, List.map_cons, ih]

theorem ingest_length (opts : ParseOptions) (es : List RawEntry)
    (data : Fields) : (ingest opts es data).1.length = es.length := by
  simp [ingest_entries]

/-! # C2 — version-header detection

The source regex is `/^xms\/(\d+)/` (line 272): no trailing `;` is required,
so the claim's "exact shape `xms/<digits>;`" is wrong; `isProbablyXMS`
(line 328) does require the `;` but is not consulted by `parse`. -/

/-- C2, counterexample: `"xms/1"` has no `;` after the digits, so under the
claim it would have to go to the legacy tokenizer with `isFallback = true`
and `version = 0`; the code strict-parses it with `version = 1` and
`isFallback = false`. -/
theorem c2_counterexample :
    (parse "xms/1".toList defaultOptions).isFallback = false ∧
    (parse "xms/1".toList defaultOptions).version = 1 := by
  constructor <;> rfl

/-- C2, amended: `parse` selects the strict tokenizer iff the input begins
with `"xms/"` followed by one or more digits (no `;` required); the digit run
becomes `version` (on strict success) and only the remainder after the digit
run is tokenized strictly; otherwise the whole input goes to the legacy
tokenizer with `version = 0` and `isFallback = true`. -/
theorem c2_amended (s : Str) :
    (∀ v body st es, matchVersionHeader s = some (v, body) →
      parseXMSCore defaultOptions body ⟨[], []⟩ = (st, some es) →
      (parse s defaultOptions).version = v ∧
      (parse s defaultOptions).isFallback = false ∧
      (parse s defaultOptions).entries = (ingest defaultOptions es []).1) ∧
    (matchVersionHeader s = none →
      (parse s defaultOptions).isFallback = true ∧
      (parse s defaultOptions).version = 0 ∧
      (parse s defaultOptions).entries =
        (ingest defaultOptions (legacyEntries defaultOptions s) []).1) := by
  constructor
  · intro v body st es h1 h2
    simp [parse, h1, h2, finishDoc]
  · intro h1
    simp [parse, h1, finishDoc, parseCommonMeta_entries]

/-- C2, witness: both arms of `c2_amended` at concrete inputs. -/
theorem c2_witness :
    ((parse "xms/7;a=1".toList defaultOptions).version = 7 ∧
      (parse "xms/7;a=1".toList defaultOptions).isFallback = false) ∧
    ((parse "plain=1".toList defaultOptions).isFallback = true ∧
      (parse "plain=1".toList defaultOptions).version = 0) := by
  have h1 := (c2_amended "xms/7;a=1".toList).1 7 ";a=1".toList ⟨[], []⟩
    [⟨['a'], some ['1']⟩] (by decide) (by decide)
  have h2 := (c2_amended "plain=1".toList).2 (by decide)
  exact ⟨⟨h1.1, h1.2.1⟩, ⟨h2.1, h2.2.1⟩⟩

/-! # C6 — the fallback/version invariant -/

/-- C6, counterexample: the entries-array branch of `XMSDoc.from`
(lines 390-406) accepts an explicit `isFallback: true` override while
defaulting `version` to `1`, so a construction path produces a document with
`isFallback = true` and `version = 1`. -/
theorem c6_counterexample :
    (fromEntries [] defaultOptions ⟨none, some true⟩).isFallback = true ∧
    (fromEntries [] defaultOptions ⟨none, some true⟩).version = 1 := by
  constructor <;> rfl

/-- C6, amended: for documents produced by `parse` and `safeParse`,
`isFallback = true` implies `version = 0`; the `from` constructors copy or
accept `version` and `isFallback` verbatim and can violate the invariant
(see the counterexample). -/
theorem c6_amended (s : Str) (i : Option Str) (opts : ParseOptions) :
    ((parse s opts).isFallback = true → (parse s opts).version = 0) ∧
    ((safeParse i opts).isFallback = true → (safeParse i opts).version = 0) := by
  have hp : ∀ u : Str, (parse u opts).isFallback = true → (parse u opts).version = 0 := by
    intro u
    rcases h1 : matchVersionHeader u with _ | ⟨v, body⟩
    · intro _; simp [parse, h1, finishDoc]
    · rcases hcore : parseXMSCore opts body ⟨[], []⟩ with ⟨st, o⟩
      rcases o with _ | es
      · intro _
        by_cases hr : opts.reparseOnFallback <;>
          simp [parse, h1, hcore, finishDoc, hr]
      · intro hfb
        exfalso
        simp [parse, h1, hcore, finishDoc] at hfb
  refine ⟨hp s, ?_⟩
  cases i with
  | none => intro _; rfl
  | some u => exact hp u

/-- C6, witness: `c6_amended` applied at a concrete legacy input and at the
non-string input. -/
theorem c6_witness :
    (parse "abc".toList defaultOptions).version = 0 ∧
    (safeParse none defaultOptions).version = 0 := by
  exact ⟨(c6_amended "abc".toList none defaultOptions).1 (by rfl),
    (c6_amended "abc".toList none defaultOptions).2 (by rfl)⟩

/-! # C9 — `safeParse` never throws -/

/-- C9: `safeParse` is total — for a string input it returns exactly the
parsed document (the constructor's success arm), and for a non-string input
the thrown `TypeError` is caught and converted to a degraded well-formed
document with `isFallback = true`, `version = 0`, and a descriptive entry in
`errors`; no exception propagates. -/
theorem c9_safeParse_total (opts : ParseOptions) (s : Str) :
    construct (some s) opts = .ok (parse s opts) ∧
    safeParse (some s) opts = parse s opts ∧
    (safeParse none opts).isFallback = true ∧
    (safeParse none opts).version = 0 ∧
    (safeParse none opts).errors =
      ["Unexpected parser failure: Input must be a string.".toList] := by
  refine ⟨rfl, rfl, rfl, rfl, ?_⟩
  simp [safeParse, construct]

/-! # C7 — token-boundary scanning

The claim asserts that the backslash escapes only inside quoting, so that an
unquoted `;` always ends the token even directly after a backslash.  The
boundary scan of lines 524-539 consumes the escape flag unconditionally — a
`\;` sequence outside quotes does not terminate the token. -/

/-- C7, counterexample: in `xms/1;a=b\;c;d=e` the `;` after the backslash is
outside any quotes (the token has no `"` at all), yet it does not terminate
the token: the scan returns the whole of `a=b\;c` with no terminator
consumed, and the parsed entry for `a` is the verbatim `b\;c`. -/
theorem c7_counterexample :
    (scanToken "a=b\\;c".toList false false).1 = "a=b\\;c".toList ∧
    (scanToken "a=b\\;c".toList false false).2.1 = [] ∧
    ';' ∈ "a=b\\;c".toList ∧
    '"' ∉ "a=b\\;c".toList ∧
    (parse "xms/1;a=b\\;c;d=e".toList defaultOptions).entries =
      [⟨['a'], some ['b', '\\', ';', 'c']⟩, ⟨['d'], some ['e']⟩] := by
  refine ⟨rfl, rfl, by decide, by decide, by decide⟩

/-- C7, amended: the boundary scan is exactly the three-mode machine
`runScan`: a token ends at the next `;` that is neither inside quotes nor
escaped; an unescaped `"` toggles quoting; a backslash escapes the following
character both inside and outside quotes. -/
theorem c7_amended (s : Str) (q e : Bool) :
    scanToken s q e = runScan (encodeState q e) s := by
  induction s generalizing q e with
  | nil => cases q <;> cases e <;> rfl
  | cons c rest ih =>
    cases q <;> cases e <;>
      by_cases h1 : c = '\\' <;> by_cases h2 : c = '"' <;> by_cases h3 : c = ';' <;>
        simp_all [scanToken, runScan, encodeState, scanStep, inQuoteOf]

/-! # C4 — scalar/object conflicts in nested materialization -/

instance : Inhabited XMSValue := ⟨.nullV⟩

theorem find?_map_replace (m : Fields) (k : Str) (v : XMSValue)
    (h : (m.any fun p => p.1 = k) = true) :
    (m.map fun p => if p.1 = k then (k, v) else p).find?
      (fun p => p.1 = k) = some (k, v) := by
  induction m with
  | nil => simp at h
  | cons p m ih =>
    obtain ⟨a, b⟩ := p
    by_cases hak : a = k
    · subst hak
      simp [List.find?_cons_of_pos]
    · have hm : (m.any fun p => p.1 = k) = true := by
        simpa [hak] using h
      simpa [hak, List.find?_cons_of_neg] using ih hm

theorem getA_setA (m : Fields) (k : Str) (v : XMSValue) :
    getA (setA m k v) k = some v := by
  by_cases h : (m.any fun p => p.1 = k) = true
  · simp [setA, getA, h, find?_map_replace m k v h]
  · have hf : m.find? (fun p => p.1 = k) = none := by
      rw [List.find?_eq_none]
      intro x hx
      rw [Bool.not_eq_true] at h
      simpa using List.any_eq_false.mp h x hx
    simp [setA, getA, h, List.find?_append, hf]

theorem pathConflict_ne_nil (obj : Fields) (segs : List Str)
    (h : pathConflict obj segs = true) : segs ≠ [] := by
  intro hs
  subst hs
  simp [pathConflict] at h

/-- With the override option, the walk always succeeds and the value is
resolvable at the full path. -/
theorem walkAssign_overwrite (segs : List Str) (obj : Fields) (v : XMSValue)
    (h : segs ≠ []) :
    ∃ r, walkAssign true obj segs v = .ok r ∧ lookupPath r segs = some v := by
  induction segs generalizing obj with
  | nil => exact absurd rfl h
  | cons seg rest ih =>
    cases rest with
    | nil =>
      exact ⟨setA obj seg v, rfl, by simp [lookupPath, getA_setA]⟩
    | cons seg' rest' =>
      have hne : seg' :: rest' ≠ [] := by simp
      rcases hg : getA obj seg with _ | val
      · obtain ⟨r, hr, hl⟩ := ih ([] : Fields) hne
        refine ⟨setA obj seg (.objV r), ?_, ?_⟩
        · simp [walkAssign, hg, hr, Except.map]
        · simp [lookupPath, getA_setA, hl]
      · cases val with
        | objV child =>
          obtain ⟨r, hr, hl⟩ := ih child hne
          refine ⟨setA obj seg (.objV r), ?_, ?_⟩
          · simp [walkAssign, hg, hr, Except.map]
          · simp [lookupPath, getA_setA, hl]
        | nullV =>
          obtain ⟨r, hr, hl⟩ := ih ([] : Fields) hne
          exact ⟨setA obj seg (.objV r), by simp [walkAssign, hg, hr, Except.map],
            by simp [lookupPath, getA_setA, hl]⟩
        | boolV b =>
          obtain ⟨r, hr, hl⟩ := ih ([] : Fields) hne
          exact ⟨setA obj seg (.objV r), by simp [walkAssign, hg, hr, Except.map],
            by simp [lookupPath, getA_setA, hl]⟩
        | numV raw =>
          obtain ⟨r, hr, hl⟩ := ih ([] : Fields) hne
          exact ⟨setA obj seg (.objV r), by simp [walkAssign, hg, hr, Except.map],
            by simp [lookupPath, getA_setA, hl]⟩
        | strV w =>
          obtain ⟨r, hr, hl⟩ := ih ([] : Fields) hne
          exact ⟨setA obj seg (.objV r), by simp [walkAssign, hg, hr, Except.map],
            by simp [lookupPath, getA_setA, hl]⟩

/-- Without the override option, a conflict makes the walk abandon before any
mutation. -/
theorem walkAssign_conflict (segs : List Str) (obj : Fields) (v : XMSValue)
    (h : pathConflict obj segs = true) :
    ∃ seg, walkAssign false obj segs v = .error seg := by
  induction segs generalizing obj with
  | nil => simp [pathConflict] at h
  | cons seg rest ih =>
    cases rest with
    | nil => simp [pathConflict] at h
    | cons seg' rest' =>
      rcases hg : getA obj seg with _ | val
      · rw [pathConflict, hg] at h
        exact absurd h (by simp)
      · cases val with
        | objV child =>
          rw [pathConflict, hg] at h
          obtain ⟨sg, hsg⟩ := ih child h
          exact ⟨sg, by simp [walkAssign, hg, hsg, Except.map]⟩
        | nullV => exact ⟨seg, by simp [walkAssign, hg]⟩
        | boolV b => exact ⟨seg, by simp [walkAssign, hg]⟩
        | numV raw => exact ⟨seg, by simp [walkAssign, hg]⟩
        | strV w => exact ⟨seg, by simp [walkAssign, hg]⟩

/-- A conflicting path does not resolve. -/
theorem lookupPath_of_conflict (segs : List Str) (obj : Fields)
    (h : pathConflict obj segs = true) : lookupPath obj segs = none := by
  induction segs generalizing obj with
  | nil => simp [pathConflict] at h
  | cons seg rest ih =>
    cases rest with
    | nil => simp [pathConflict] at h
    | cons seg' rest' =>
      rcases hg : getA obj seg with _ | val
      · rw [pathConflict, hg] at h
        exact absurd h (by simp)
      · cases val with
        | objV child =>
          rw [pathConflict, hg] at h
          simp [lookupPath, hg, ih child h]
        | nullV => simp [lookupPath, hg]
        | boolV b => simp [lookupPath, hg]
        | numV raw => simp [lookupPath, hg]
        | strV w => simp [lookupPath, hg]

/-- C4, counterexample: the specification's own example,
`"user=steve;user.stats.level=5"` under the default configuration.  The
conflict at segment `user` abandons nested materialization with a warning:
`user` stays the string `"steve"`, and the final segment does *not* receive
the value — the claim's "in both cases the final segment receives the
entry's value" fails in the default case. -/
theorem c4_counterexample :
    (parse "user=steve;user.stats.level=5".toList defaultOptions).data =
      [("user".toList, .strV "steve".toList)] ∧
    lookupPath (parse "user=steve;user.stats.level=5".toList defaultOptions).data
      ["user".toList, "stats".toList, "level".toList] = none ∧
    (parse "user=steve;user.stats.level=5".toList defaultOptions).warnings ≠ [] := by
  refine ⟨rfl, rfl, by decide⟩

/-- C4, amended: when an intermediate segment of a dotted name already holds
a non-object value (and the name is within the depth limit, has no empty
segment, and flat-key materialization is off): with the override option the
segment is overwritten with a fresh object and the final segment receives
the entry's value, with no warning; by default nested materialization for
the key is abandoned with a warning, the data object is left unchanged, and
the final segment does **not** receive the value. -/
theorem c4_amended (overwrite : Bool) (root : Fields) (key : Str)
    (value : XMSValue) (cfg : AssignCfg)
    (hnest : cfg.createNestedKeys = true) (hflat : cfg.createFlatKeys = false)
    (hne : ((splitDotsTop key).any (·.isEmpty)) = false)
    (hdepth : (splitDotsTop key).length ≤ cfg.maxNestingDepth)
    (hconf : pathConflict root (splitDotsTop key) = true) :
    (overwrite = true →
      (assignNested overwrite root key value cfg).2 = [] ∧
      lookupPath (assignNested overwrite root key value cfg).1
        (splitDotsTop key) = some value) ∧
    (overwrite = false →
      (assignNested overwrite root key value cfg).1 = root ∧
      (assignNested overwrite root key value cfg).2 ≠ [] ∧
      lookupPath (assignNested overwrite root key value cfg).1
        (splitDotsTop key) = none) := by
  have hd : ¬ cfg.maxNestingDepth < (splitDotsTop key).length := by omega
  constructor
  · intro ho
    subst ho
    obtain ⟨r, hr, hl⟩ := walkAssign_overwrite (splitDotsTop key) root value
      (pathConflict_ne_nil root _ hconf)
    constructor
    · simp [assignNested, hnest, hflat, hne, hd, hr]
    · simp [assignNested, hnest, hflat, hne, hd, hr, hl]
  · intro ho
    subst ho
    obtain ⟨sg, hsg⟩ := walkAssign_conflict (splitDotsTop key) root value hconf
    refine ⟨?_, ?_, ?_⟩
    · simp [assignNested, hnest, hflat, hne, hd, hsg]
    · simp [assignNested, hnest, hflat, hne, hd, hsg]
    · have hroot : (assignNested false root key value cfg).1 = root := by
        simp [assignNested, hnest, hflat, hne, hd, hsg]
      rw [hroot]
      exact lookupPath_of_conflict _ root hconf

/-- C4, witness: `c4_amended` at the specification's example object, in both
policies. -/
theorem c4_witness :
    ((assignNested true [("user".toList, .strV "steve".toList)]
        "user.stats.level".toList (.strV ['5']) ⟨5, false, true⟩).2 = [] ∧
      lookupPath (assignNested true [("user".toList, .strV "steve".toList)]
        "user.stats.level".toList (.strV ['5']) ⟨5, false, true⟩).1
        (splitDotsTop "user.stats.level".toList) = some (.strV ['5'])) ∧
    ((assignNested false [("user".toList, .strV "steve".toList)]
        "user.stats.level".toList (.strV ['5']) ⟨5, false, true⟩).1 =
        [("user".toList, .strV "steve".toList)] ∧
      (assignNested false [("user".toList, .strV "steve".toList)]
        "user.stats.level".toList (.strV ['5']) ⟨5, false, true⟩).2 ≠ []) := by
  have h1 := (c4_amended true [("user".toList, .strV "steve".toList)]
    "user.stats.level".toList (.strV ['5']) ⟨5, false, true⟩
    rfl rfl (by decide) (by decide) (by decide)).1 rfl
  have h2 := (c4_amended false [("user".toList, .strV "steve".toList)]
    "user.stats.level".toList (.strV ['5']) ⟨5, false, true⟩
    rfl rfl (by decide) (by decide) (by decide)).2 rfl
  exact ⟨⟨h1.1, h1.2⟩, ⟨h2.1, h2.2.1⟩⟩

/-! # C3 — bare-token semantics -/

theorem findEq_none_of_not_mem (t : Str) (q e : Bool) (h : '=' ∉ t) :
    findEq t q e = none := by
  induction t generalizing q e with
  | nil => rfl
  | cons c rest ih =>
    have hc : c ≠ '=' := fun hc => h (hc ▸ List.mem_cons_self c rest)
    have hr : '=' ∉ rest := fun hr => h (List.mem_cons_of_mem c hr)
    simp only [findEq]
    split_ifs with he h1 h2 h3
    · simp [ih _ _ hr]
    · simp [ih _ _ hr]
    · simp [ih _ _ hr]
    · exact absurd h3.1 hc
    · simp [ih _ _ hr]

theorem findEq_split (t : Str) : ∀ (q e : Bool) (b a : Str),
    findEq t q e = some (b, a) → t = b ++ '=' :: a := by
  induction t with
  | nil => intro q e b a h; simp [findEq] at h
  | cons c rest ih =>
    intro q e b a h
    simp only [findEq] at h
    split_ifs at h with he h1 h2 h3
    · obtain ⟨⟨b', a'⟩, hp, hba⟩ := Option.map_eq_some'.mp h
      simp only [Prod.mk.injEq] at hba
      obtain ⟨hb, ha⟩ := hba
      subst hb ha
      simp [ih _ _ _ _ hp]
    · obtain ⟨⟨b', a'⟩, hp, hba⟩ := Option.map_eq_some'.mp h
      simp only [Prod.mk.injEq] at hba
      obtain ⟨hb, ha⟩ := hba
      subst hb ha
      simp [ih _ _ _ _ hp]
    · obtain ⟨⟨b', a'⟩, hp, hba⟩ := Option.map_eq_some'.mp h
      simp only [Prod.mk.injEq] at hba
      obtain ⟨hb, ha⟩ := hba
      subst hb ha
      simp [ih _ _ _ _ hp]
    · rw [Option.some.injEq, Prod.mk.injEq] at h
      obtain ⟨hb, ha⟩ := h
      subst hb ha
      simp [h3.1]
    · obtain ⟨⟨b', a'⟩, hp, hba⟩ := Option.map_eq_some'.mp h
      simp only [Prod.mk.injEq] at hba
      obtain ⟨hb, ha⟩ := hba
      subst hb ha
      simp [ih _ _ _ _ hp]

/-- If `=` does not occur in `k`, the only way to write `k ++ "="` as
`b ++ "=" :: a` is `b = k`, `a = []`. -/
theorem append_eq_singleton_split (k : Str) (hk : '=' ∉ k) :
    ∀ b a : Str, k ++ ['='] = b ++ '=' :: a → b = k ∧ a = [] := by
  induction k with
  | nil =>
    intro b a h
    cases b with
    | nil =>
      simp only [List.nil_append, List.cons.injEq] at h
      exact ⟨rfl, h.2.symm⟩
    | cons c b' =>
      exfalso
      have := congrArg List.length h
      simp at this
  | cons d k' ih =>
    intro b a h
    have hd : d ≠ '=' := fun hd => hk (hd ▸ List.mem_cons_self d k')
    have hk' : '=' ∉ k' := fun hm => hk (List.mem_cons_of_mem d hm)
    cases b with
    | nil =>
      exfalso
      simp only [List.cons_append, List.nil_append, List.cons.injEq] at h
      exact hd h.1
    | cons c b' =>
      simp only [List.cons_append, List.cons.injEq] at h
      obtain ⟨rfl, h2⟩ := h
      obtain ⟨hb, ha⟩ := ih hk' b' a h2
      exact ⟨by rw [hb], ha⟩

theorem splitAtFirstEq_none_of_not_mem (u : Str) (h : '=' ∉ u) :
    splitAtFirstEq u = none := by
  induction u with
  | nil => rfl
  | cons x xs ih =>
    have hx : x ≠ '=' := fun hx => h (hx ▸ List.mem_cons_self x xs)
    have hxs : '=' ∉ xs := fun hm => h (List.mem_cons_of_mem x hm)
    simp [splitAtFirstEq, hx, ih hxs]

theorem splitAtFirstEq_append (k : Str) (hk : '=' ∉ k) :
    splitAtFirstEq (k ++ ['=']) = some (k, []) := by
  induction k with
  | nil => rfl
  | cons d k' ih =>
    have hd : d ≠ '=' := fun hd => hk (hd ▸ List.mem_cons_self d k')
    have hk' : '=' ∉ k' := fun hm => hk (List.mem_cons_of_mem d hm)
    simp [splitAtFirstEq, hd, ih hk']

theorem trimList_nil : trimList [] = [] := rfl

theorem trimList_subset (t : Str) (c : Char) (h : c ∈ trimList t) : c ∈ t := by
  simp only [trimList, List.mem_reverse] at h
  have h1 := (List.dropWhile_sublist (l := (t.dropWhile isWS).reverse) isWS).mem h
  rw [List.mem_reverse] at h1
  exact (List.dropWhile_sublist isWS).mem h1

/-- C3: a token with no `=` yields `value = null` in the strict tokenizer but
`value = ""` in the legacy tokenizer, while `key=` (empty right-hand side)
yields `value = null` in both; the two bare-token semantics are distinct. -/
theorem c3_bare_token_semantics (t k : Str)
    (h1 : '=' ∉ t) (h2 : trimList t ≠ []) (h3 : '=' ∉ k)
    (h4 : trimList (k ++ ['=']) = k ++ ['=']) :
    (processToken defaultOptions t).2 = .ok (some ⟨lowerStr t, none⟩) ∧
    (legacyToken defaultOptions t).2 = some ⟨lowerStr (trimList t), some []⟩ ∧
    (∃ nm, (processToken defaultOptions (k ++ ['='])).2 = .ok (some ⟨nm, none⟩)) ∧
    (legacyToken defaultOptions (k ++ ['='])).2 =
      some ⟨lowerStr (trimList k), none⟩ ∧
    (some ([] : Str) : Option Str) ≠ (none : Option Str) := by
  refine ⟨?_, ?_, ?_, ?_, by simp⟩
  · have hfe := findEq_none_of_not_mem t false false h1
    by_cases hkp : keyPattern (lowerStr t) = true <;>
      simp [processToken, hfe, hkp, defaultOptions]
  · have hraw : '=' ∉ trimList t := fun hm => h1 (trimList_subset t '=' hm)
    have hfe := splitAtFirstEq_none_of_not_mem (trimList t) hraw
    by_cases hkp : keyPattern (lowerStr (trimList t)) = true <;>
      simp [legacyToken, h2, hfe, hkp, defaultOptions]
  · cases hfe : findEq (k ++ ['=']) false false with
    | none =>
      refine ⟨lowerStr (k ++ ['=']), ?_⟩
      by_cases hkp : keyPattern (lowerStr (k ++ ['='])) = true <;>
        simp [processToken, hfe, hkp, defaultOptions]
    | some p =>
      obtain ⟨b, a⟩ := p
      obtain ⟨hb, ha⟩ := append_eq_singleton_split k h3 b a (findEq_split _ _ _ _ _ hfe)
      rw [hb, ha] at hfe
      refine ⟨lowerStr (trimList k), ?_⟩
      simp only [processToken, hfe, trimList_nil]
      by_cases hkp : keyPattern (lowerStr (trimList k)) = true <;>
        simp [hkp, defaultOptions]
  · have hne : (k ++ ['=']).isEmpty = false := by simp
    have hfe := splitAtFirstEq_append k h3
    simp only [legacyToken, h4, hne, hfe, trimList_nil]
    by_cases hkp : keyPattern (lowerStr (trimList k)) = true <;>
      simp [hkp, defaultOptions]

/-- C3, witness: `c3_bare_token_semantics` at the concrete tokens `flag` and
`key=`. -/
theorem c3_witness :
    (processToken defaultOptions "flag".toList).2 =
      .ok (some ⟨lowerStr "flag".toList, none⟩) ∧
    (legacyToken defaultOptions "flag".toList).2 =
      some ⟨lowerStr (trimList "flag".toList), some []⟩ ∧
    (∃ nm, (processToken defaultOptions ("key".toList ++ ['='])).2 =
      .ok (some ⟨nm, none⟩)) := by
  have h := c3_bare_token_semantics "flag".toList "key".toList
    (by decide) (by decide) (by decide) (by decide)
  exact ⟨h.1, h.2.1, h.2.2.1⟩

/-! # C1 / C10 — the fallback-recovery protocol and the error log -/

theorem finishDoc_errors (opts : ParseOptions) (v : Nat) (fb : Bool)
    (es : List RawEntry) (st : InternalState) :
    (finishDoc opts v fb es st).errors = st.errors := rfl

/-- The strict tokenizer pushes exactly one error message, immediately before
throwing: on success the error log is untouched, on failure exactly one
message was appended. -/
theorem coreGo_errors (opts : ParseOptions) : ∀ (fuel : Nat) (body : Str)
    (st : InternalState),
    ((parseXMSCoreGo opts fuel body st).2 ≠ none →
      (parseXMSCoreGo opts fuel body st).1.errors = st.errors) ∧
    ((parseXMSCoreGo opts fuel body st).2 = none →
      ∃ m, (parseXMSCoreGo opts fuel body st).1.errors = st.errors ++ [m]) := by
  intro fuel
  induction fuel with
  | zero =>
    intro body st
    exact ⟨fun _ => rfl, fun h => by simp [parseXMSCoreGo] at h⟩
  | succ f ih =>
    intro body st
    simp only [parseXMSCoreGo]
    by_cases he : (body.dropWhile (· = ';')).isEmpty
    · simp [he]
    · rcases hS : scanToken (body.dropWhile (· = ';')) false false with ⟨tok, rest0, inq⟩
      simp only [he, hS, Bool.false_eq_true, if_false]
      by_cases hq : inq = true
      · simp only [hq, if_true]
        exact ⟨fun h => absurd rfl h, fun _ => ⟨unterminatedMsg, rfl⟩⟩
      · simp only [Bool.not_eq_true] at hq
        simp only [hq, Bool.false_eq_true, if_false]
        by_cases ht : (trimList tok).isEmpty
        · simp only [ht, if_true]
          exact ih _ _
        · simp only [ht, Bool.false_eq_true, if_false]
          rcases hpr : processToken opts (trimList tok) with ⟨ws, res⟩
          simp only [hpr]
          cases res with
          | error msg =>
            exact ⟨fun h => absurd rfl h, fun _ => ⟨msg, rfl⟩⟩
          | ok oe =>
            cases oe with
            | none => exact ih _ _
            | some e =>
              constructor
              · intro h
                refine (ih _ _).1 fun hn => h ?_
                simp [hn]
              · intro h
                simp only [Option.map_eq_none'] at h
                exact (ih _ _).2 h

theorem parseXMSCore_errors_of_ok (opts : ParseOptions) (body : Str)
    (st0 : InternalState) (es : List RawEntry)
    (h : parseXMSCore opts body ⟨[], []⟩ = (st0, some es)) :
    st0.errors = [] := by
  have h2 := (coreGo_errors opts (body.length + 1) body ⟨[], []⟩).1
  rw [parseXMSCore] at h
  rw [h] at h2
  exact h2 (by simp)

theorem parseXMSCore_errors_of_fail (opts : ParseOptions) (body : Str)
    (st0 : InternalState)
    (h : parseXMSCore opts body ⟨[], []⟩ = (st0, none)) :
    st0.errors ≠ [] := by
  have h2 := (coreGo_errors opts (body.length + 1) body ⟨[], []⟩).2
  rw [parseXMSCore] at h
  rw [h] at h2
  obtain ⟨m, hm⟩ := h2 rfl
  simp only at hm
  rw [hm]
  simp

theorem splitTokens_structure : ∀ (s cur : Str), cur ≠ [] →
    ∃ u rest, splitTokens s cur = (cur ++ u) :: rest := by
  intro s
  induction s with
  | nil =>
    intro cur hc
    refine ⟨[], [], ?_⟩
    simp [splitTokens, hc]
  | cons c r ih =>
    intro cur hc
    by_cases hsemi : c = ';'
    · refine ⟨[], splitTokens r [], ?_⟩
      simp [splitTokens, hsemi, hc]
    · obtain ⟨u, rest, hu⟩ := ih (cur ++ [c]) (by simp)
      exact ⟨[c] ++ u, rest, by simp [splitTokens, hsemi, hu]⟩

theorem trimList_ne_nil_of_head (c : Char) (u : Str) (h : isWS c = false) :
    trimList (c :: u) ≠ [] := by
  simp only [trimList, List.dropWhile_cons, h, Bool.false_eq_true, if_false]
  intro hcontra
  rw [List.reverse_eq_nil_iff, List.dropWhile_eq_nil_iff] at hcontra
  have := hcontra c (by simp)
  rw [h] at this
  cases this

/-- A legacy parse of an input starting with a non-`;`, non-whitespace
character yields at least one entry whenever invalid keys are kept. -/
theorem legacyEntries_ne_nil (opts : ParseOptions) (c : Char) (r : Str)
    (hc : c ≠ ';') (hw : isWS c = false)
    (hk : opts.keepInvalidKeys = true) :
    legacyEntries opts (c :: r) ≠ [] := by
  obtain ⟨u, rest, hu⟩ := splitTokens_structure r [c] (by simp)
  have hsplit : splitTokens (c :: r) [] = (c :: u) :: rest := by
    simpa [splitTokens, hc] using hu
  have htok : (legacyToken opts (c :: u)).2 ≠ none := by
    have hraw := trimList_ne_nil_of_head c u hw
    rcases htr : trimList (c :: u) with _ | ⟨d, ds⟩
    · exact absurd htr hraw
    · rcases hsp : splitAtFirstEq (d :: ds) with _ | ⟨l, rr⟩
      · by_cases hkp : keyPattern (lowerStr (d :: ds)) = true <;>
          simp [legacyToken, htr, hsp, hkp, hk]
      · by_cases hkp : keyPattern (lowerStr (trimList l)) = true <;>
          simp [legacyToken, htr, hsp, hkp, hk]
  rcases hv : (legacyToken opts (c :: u)).2 with _ | e
  · exact absurd hv htok
  · simp [legacyEntries, hsplit, hv]

theorem matchVersionHeader_shape (s : Str) (v : Nat) (body : Str)
    (h : matchVersionHeader s = some (v, body)) :
    ∃ rest, s = 'x' :: 'm' :: 's' :: '/' :: rest := by
  unfold matchVersionHeader at h
  split at h
  · next rest => exact ⟨rest, rfl⟩
  · cases h

/-- C1: when the version header matched and strict tokenizing throws
(unterminated quote, malformed quoted value, or dangling escape), `parse`
under the default configuration returns a fallback document — no exception
escapes (the model of `parse` is total) — with `isFallback = true`,
`version = 0`, and a non-empty entry log obtained by re-running the legacy
tokenizer over the entire original input. -/
theorem c1_strict_failure_fallback (s : Str) (v : Nat) (body : Str)
    (st : InternalState)
    (h1 : matchVersionHeader s = some (v, body))
    (h2 : parseXMSCore defaultOptions body ⟨[], []⟩ = (st, none)) :
    (parse s defaultOptions).isFallback = true ∧
    (parse s defaultOptions).version = 0 ∧
    (parse s defaultOptions).entries =
      (ingest defaultOptions (legacyEntries defaultOptions s) []).1 ∧
    (parse s defaultOptions).entries ≠ [] := by
  have hre : defaultOptions.reparseOnFallback = true := rfl
  have hen : (parse s defaultOptions).entries =
      (ingest defaultOptions (legacyEntries defaultOptions s) []).1 := by
    simp [parse, h1, h2, hre, finishDoc, parseCommonMeta_entries]
  refine ⟨by simp [parse, h1, h2, hre, finishDoc],
    by simp [parse, h1, h2, hre, finishDoc], hen, ?_⟩
  rw [hen]
  obtain ⟨rest, hs⟩ := matchVersionHeader_shape s v body h1
  subst hs
  have hne := legacyEntries_ne_nil defaultOptions 'x'
    ('m' :: 's' :: '/' :: rest) (by decide) (by decide) rfl
  intro hcontra
  apply hne
  have := congrArg List.length hcontra
  rw [ingest_length] at this
  exact List.length_eq_zero.mp this

/-- C1, witness: a concrete unterminated-quote input. -/
theorem c1_witness :
    (parse "xms/1;a=\"b".toList defaultOptions).isFallback = true ∧
    (parse "xms/1;a=\"b".toList defaultOptions).version = 0 ∧
    (parse "xms/1;a=\"b".toList defaultOptions).entries ≠ [] := by
  have h := c1_strict_failure_fallback "xms/1;a=\"b".toList 1 ";a=\"b".toList
    ⟨[], ["Unterminated quote; fallback.".toList]⟩ (by decide) (by decide)
  exact ⟨h.1, h.2.1, h.2.2.2⟩

/-- C10: the error log of a parsed document is non-empty exactly when the
version header matched and the strict tokenizer threw; in particular a legacy
parse taken because no header was present always has an empty error log, so
callers can distinguish the two fallback causes by inspecting `errors`. -/
theorem c10_errors_iff (s : Str) :
    (parse s defaultOptions).errors ≠ [] ↔
      ∃ v body st, matchVersionHeader s = some (v, body) ∧
        parseXMSCore defaultOptions body ⟨[], []⟩ = (st, none) := by
  rcases h1 : matchVersionHeader s with _ | ⟨v, body⟩
  · constructor
    · intro h
      exfalso
      apply h
      have hcm := parseCommonMeta_errors defaultOptions s ⟨[], []⟩
      simp [parse, h1, finishDoc_errors, hcm]
    · rintro ⟨v, body, st, hm, _⟩
      exact Option.noConfusion hm
  · rcases hcore : parseXMSCore defaultOptions body ⟨[], []⟩ with ⟨st0, o⟩
    cases o with
    | some es =>
      constructor
      · intro h
        exfalso
        apply h
        have he0 := parseXMSCore_errors_of_ok defaultOptions body st0 es hcore
        simp [parse, h1, hcore, finishDoc_errors, he0]
      · rintro ⟨v', body', st', hm, hc⟩
        injection hm with hm
        injection hm with hv hb
        subst hv hb
        rw [hcore] at hc
        injection hc with _ hc2
        cases hc2
    | none =>
      constructor
      · intro _
        exact ⟨v, body, st0, rfl, hcore⟩
      · intro _
        have he0 := parseXMSCore_errors_of_fail defaultOptions body st0 hcore
        have hre : defaultOptions.reparseOnFallback = true := rfl
        have hcm := parseCommonMeta_errors defaultOptions s st0
        simpa [parse, h1, hcore, hre, finishDoc_errors, hcm] using he0

/-! # C8 — length limits -/

/-- C8: with limit enforcement enabled, the per-entry pipeline rewrites the
entry to the `enforceLength` result and coerces *that* string (truncation
precedes coercion); `username` truncates to 16 with a warning, `message`,
`error` and `error.message` to 255 with a warning, keys outside the table
and within-limit values are untouched. -/
theorem c8_limit_enforcement (opts : ParseOptions) (data : Fields)
    (key v : Str) (h : opts.enforceLimits = true) :
    (ingestEntry opts data ⟨key, some v⟩).1 =
      ⟨key, some (enforceLength key v).1⟩ ∧
    (ingestEntry opts data ⟨key, some v⟩).2.1 =
      (assignNested opts.overwriteScalarsForNested data key
        (coerceValue opts (some (enforceLength key v).1))
        ⟨opts.maxNestingDepth, opts.createFlatKeys, opts.createNestedKeys⟩).1 ∧
    (key = "username".toList → 16 < v.length →
      (enforceLength key v).1 = v.take 16 ∧ (enforceLength key v).2 ≠ none) ∧
    ((key = "message".toList ∨ key = "error".toList ∨
        key = "error.message".toList) → 255 < v.length →
      (enforceLength key v).1 = v.take 255 ∧ (enforceLength key v).2 ≠ none) ∧
    (limitFor key = none → enforceLength key v = (v, none)) ∧
    (∀ L, limitFor key = some L → v.length ≤ L →
      enforceLength key v = (v, none)) := by
  refine ⟨by simp [ingestEntry, truncEntry, h], by simp [ingestEntry, truncEntry, h],
    ?_, ?_, ?_, ?_⟩
  · rintro rfl hlen
    have hl : limitFor "username".toList = some 16 := by decide
    simp only [enforceLength, hl]
    simp [hlen]
  · rintro (rfl | rfl | rfl) hlen
    · have hl : limitFor "message".toList = some 255 := by decide
      simp only [enforceLength, hl]
      simp [hlen]
    · have hl : limitFor "error".toList = some 255 := by decide
      simp only [enforceLength, hl]
      simp [hlen]
    · have hl : limitFor "error.message".toList = some 255 := by decide
      simp only [enforceLength, hl]
      simp [hlen]
  · intro hl
    simp [enforceLength, hl]
  · intro L hl hlen
    simp [enforceLength, hl, Nat.not_lt.mpr hlen]

/-- C8, witness: a 20-character `username` is truncated to 16 with a warning;
`other` is untouched. -/
theorem c8_witness :
    (ingestEntry defaultOptions [] ⟨"username".toList,
        some (List.replicate 20 'x')⟩).1 =
      ⟨"username".toList, some (List.replicate 16 'x')⟩ ∧
    (enforceLength "username".toList (List.replicate 20 'x')).2 ≠ none ∧
    enforceLength "other".toList (List.replicate 20 'x') =
      (List.replicate 20 'x', none) := by
  have h := c8_limit_enforcement defaultOptions [] "username".toList
    (List.replicate 20 'x') rfl
  have h16 := h.2.2.1 rfl (by decide)
  refine ⟨?_, h16.2, ?_⟩
  · rw [h.1, h16.1]
    decide
  · have h2 := c8_limit_enforcement defaultOptions [] "other".toList
      (List.replicate 20 'x') rfl
    exact h2.2.2.2.2.1 (by decide)

/-! # C5 — serializer/parser round trip

Stage 1: character-class facts and scanner-state lemmas. -/

theorem char_le_iff_toNat (a b : Char) : a ≤ b ↔ a.toNat ≤ b.toNat := by
  rw [Char.le_def, UInt32.le_def, BitVec.le_def]
  rfl

/-- The facts a `KEY_PATTERN` character satisfies: it is none of the scanner
metacharacters, is not whitespace, and is fixed by lower-casing. -/
theorem keyChar_facts (c : Char) (h : isKeyChar c = true) :
    c ≠ '\\' ∧ c ≠ '"' ∧ c ≠ ';' ∧ c ≠ '=' ∧ isWS c = false ∧ lowerChar c = c := by
  simp only [isKeyChar, Bool.or_eq_true, decide_eq_true_eq, Bool.and_eq_true] at h
  rcases h with ⟨h1, h2⟩ | ⟨h1, h2⟩ | rfl | rfl
  · have hn1 : 97 ≤ c.toNat := (char_le_iff_toNat 'a' c).mp h1
    have hn2 : c.toNat ≤ 122 := (char_le_iff_toNat c 'z').mp h2
    refine ⟨?_, ?_, ?_, ?_, ?_, ?_⟩
    · rintro rfl; exact absurd hn1 (by decide)
    · rintro rfl; exact absurd hn1 (by decide)
    · rintro rfl; exact absurd hn1 (by decide)
    · rintro rfl; exact absurd hn1 (by decide)
    · rcases hws : isWS c with _ | _
      · rfl
      · exfalso
        simp only [isWS, Bool.or_eq_true, decide_eq_true_eq] at hws
        rcases hws with rfl | rfl | rfl | rfl <;> exact absurd hn1 (by decide)
    · rw [lowerChar, if_neg]
      rintro ⟨ha, hb⟩
      have hz : Char.toNat 'Z' = 90 := by decide
      have := (char_le_iff_toNat c 'Z').mp hb
      omega
  · have hn1 : 48 ≤ c.toNat := (char_le_iff_toNat '0' c).mp h1
    have hn2 : c.toNat ≤ 57 := (char_le_iff_toNat c '9').mp h2
    refine ⟨?_, ?_, ?_, ?_, ?_, ?_⟩
    · rintro rfl; exact absurd hn2 (by decide)
    · rintro rfl; exact absurd hn1 (by decide)
    · rintro rfl; exact absurd hn2 (by decide)
    · rintro rfl; exact absurd hn2 (by decide)
    · rcases hws : isWS c with _ | _
      · rfl
      · exfalso
        simp only [isWS, Bool.or_eq_true, decide_eq_true_eq] at hws
        rcases hws with rfl | rfl | rfl | rfl <;> exact absurd hn1 (by decide)
    · rw [lowerChar, if_neg]
      rintro ⟨ha, hb⟩
      have hA : Char.toNat 'A' = 65 := by decide
      have := (char_le_iff_toNat 'A' c).mp ha
      omega
  · exact ⟨by decide, by decide, by decide, by decide, by decide, by decide⟩
  · exact ⟨by decide, by decide, by decide, by decide, by decide, by decide⟩

theorem keyPattern_props (k : Str) (h : keyPattern k = true) :
    k ≠ [] ∧ ∀ c ∈ k, isKeyChar c = true := by
  simp only [keyPattern, Bool.and_eq_true, decide_eq_true_eq, List.all_eq_true] at h
  refine ⟨?_, h.2⟩
  intro hk
  subst hk
  simp at h

theorem lowerStr_of_all_keyChar (k : Str)
    (h2 : ∀ c ∈ k, isKeyChar c = true) : lowerStr k = k := by
  induction k with
  | nil => rfl
  | cons c cs ih =>
    have hc := (keyChar_facts c (h2 c (by simp))).2.2.2.2.2
    have hcs := ih fun x hx => h2 x (List.mem_cons_of_mem c hx)
    simp only [lowerStr, List.map_cons] at hcs ⊢
    rw [hc, hcs]

theorem lowerStr_of_keyPattern (k : Str) (h : keyPattern k = true) :
    lowerStr k = k :=
  lowerStr_of_all_keyChar k (keyPattern_props k h).2

theorem eq_not_mem_of_keyPattern (k : Str) (h : keyPattern k = true) :
    '=' ∉ k := fun hm =>
  (keyChar_facts '=' ((keyPattern_props k h).2 '=' hm)).2.2.2.1 rfl

theorem scanFree_cons (c : Char) (a : Str) (q e : Bool) :
    scanFree (c :: a) q e =
      if e then scanFree a q false
      else if c = '\\' then scanFree a q true
      else if c = '"' then scanFree a (!q) false
      else if c = ';' ∧ ¬ q then none
      else scanFree a q false := rfl

theorem scanToken_cons (c : Char) (a : Str) (q e : Bool) :
    scanToken (c :: a) q e =
      if e then
        (c :: (scanToken a q false).1, (scanToken a q false).2.1,
          (scanToken a q false).2.2)
      else if c = '\\' then
        (c :: (scanToken a q true).1, (scanToken a q true).2.1,
          (scanToken a q true).2.2)
      else if c = '"' then
        (c :: (scanToken a (!q) false).1, (scanToken a (!q) false).2.1,
          (scanToken a (!q) false).2.2)
      else if c = ';' ∧ ¬ q then ([], c :: a, q)
      else
        (c :: (scanToken a q false).1, (scanToken a q false).2.1,
          (scanToken a q false).2.2) := rfl

/-- Consuming a `;`-free, quote-free, escape-free block leaves the scan state
unchanged. -/
theorem scanFree_plain (a : Str)
    (h : ∀ c ∈ a, c ≠ '\\' ∧ c ≠ '"' ∧ c ≠ ';') :
    scanFree a false false = some (false, false) := by
  induction a with
  | nil => rfl
  | cons c a' ih =>
    obtain ⟨h1, h2, h3⟩ := h c (by simp)
    rw [scanFree_cons, if_neg (by simp), if_neg h1, if_neg h2,
      if_neg fun hx => h3 hx.1]
    exact ih fun x hx => h x (List.mem_cons_of_mem c hx)

theorem scanFree_append_free (a : Str) : ∀ (b : Str) (q e q' e' : Bool),
    scanFree a q e = some (q', e') → scanFree (a ++ b) q e = scanFree b q' e' := by
  induction a with
  | nil =>
    intro b q e q' e' h
    simp only [scanFree, Option.some.injEq, Prod.mk.injEq] at h
    obtain ⟨rfl, rfl⟩ := h
    rfl
  | cons c a' ih =>
    intro b q e q' e' h
    rw [List.cons_append, scanFree_cons]
    rw [scanFree_cons] at h
    by_cases he : e = true
    · rw [if_pos he] at h ⊢
      exact ih b q false q' e' h
    · rw [if_neg he] at h ⊢
      by_cases h1 : c = '\\'
      · rw [if_pos h1] at h ⊢
        exact ih b q true q' e' h
      · rw [if_neg h1] at h ⊢
        by_cases h2 : c = '"'
        · rw [if_pos h2] at h ⊢
          exact ih b (!q) false q' e' h
        · rw [if_neg h2] at h ⊢
          by_cases h3 : c = ';' ∧ ¬ q = true
          · rw [if_pos h3] at h
            cases h
          · rw [if_neg h3] at h ⊢
            exact ih b q false q' e' h

/-- Scanning the escaped interior of a quoted value keeps the scanner inside
quotes with no pending escape. -/
theorem scanFree_escaped (v : Str) :
    scanFree (escapeQuoted v) true false = some (true, false) := by
  induction v with
  | nil => rfl
  | cons c v' ih =>
    by_cases hc : c = '"' ∨ c = '\\'
    · have hshape : escapeQuoted (c :: v') = '\\' :: c :: escapeQuoted v' := by
        simp [escapeQuoted, hc]
      rw [hshape, scanFree_cons, if_neg (by simp), if_pos rfl, scanFree_cons,
        if_pos rfl]
      exact ih
    · have hshape : escapeQuoted (c :: v') = c :: escapeQuoted v' := by
        simp [escapeQuoted, hc]
      have h1 : c ≠ '\\' := fun h => hc (Or.inr h)
      have h2 : c ≠ '"' := fun h => hc (Or.inl h)
      rw [hshape, scanFree_cons, if_neg (by simp), if_neg h1, if_neg h2,
        if_neg (by simp)]
      exact ih

theorem scanFree_append_run (a : Str) : ∀ (b : Str) (q e q' e' : Bool),
    scanFree a q e = some (q', e') →
    scanToken (a ++ b) q e =
      (a ++ (scanToken b q' e').1, (scanToken b q' e').2.1,
        (scanToken b q' e').2.2) := by
  induction a with
  | nil =>
    intro b q e q' e' h
    simp only [scanFree, Option.some.injEq, Prod.mk.injEq] at h
    obtain ⟨rfl, rfl⟩ := h
    rfl
  | cons c a' ih =>
    intro b q e q' e' h
    rw [List.cons_append, scanToken_cons]
    rw [scanFree_cons] at h
    by_cases he : e = true
    · rw [if_pos he] at h ⊢
      rw [ih b q false q' e' h]
      rfl
    · rw [if_neg he] at h ⊢
      by_cases h1 : c = '\\'
      · rw [if_pos h1] at h ⊢
        rw [ih b q true q' e' h]
        rfl
      · rw [if_neg h1] at h ⊢
        by_cases h2 : c = '"'
        · rw [if_pos h2] at h ⊢
          rw [ih b (!q) false q' e' h]
          rfl
        · rw [if_neg h2] at h ⊢
          by_cases h3 : c = ';' ∧ ¬ q = true
          · rw [if_pos h3] at h
            cases h
          · rw [if_neg h3] at h ⊢
            rw [ih b q false q' e' h]
            rfl

/-- A fully scanFree-clean string scans as one whole token with no
terminator. -/
theorem scanToken_run (a : Str) (q e q' e' : Bool)
    (h : scanFree a q e = some (q', e')) :
    scanToken a q e = (a, [], q') := by
  have h2 := scanFree_append_run a [] q e q' e' h
  simpa [scanToken] using h2

theorem unescapeValue_cons (c : Char) (rest : Str) :
    unescapeValue (c :: rest) =
      if c = '\\' then
        (match rest with
          | [] => none
          | d :: rest2 => (unescapeValue rest2).map (d :: ·))
      else (unescapeValue rest).map (c :: ·) := by
  rw [unescapeValue.eq_def]
  rfl

theorem unescape_escape (v : Str) :
    unescapeValue (escapeQuoted v) = some v := by
  induction v with
  | nil => rfl
  | cons c v' ih =>
    by_cases hc : c = '"' ∨ c = '\\'
    · have hshape : escapeQuoted (c :: v') = '\\' :: c :: escapeQuoted v' := by
        simp [escapeQuoted, hc]
      rw [hshape]
      simp [unescapeValue, ih]
    · have hshape : escapeQuoted (c :: v') = c :: escapeQuoted v' := by
        simp [escapeQuoted, hc]
      have h1 : c ≠ '\\' := fun h => hc (Or.inr h)
      rw [hshape, unescapeValue_cons, if_neg h1, ih]
      rfl

theorem trimList_eq_self (t : Str)
    (h1 : ∀ c, t.head? = some c → isWS c = false)
    (h2 : ∀ c, t.getLast? = some c → isWS c = false) : trimList t = t := by
  cases t with
  | nil => rfl
  | cons c u =>
    have hc := h1 c rfl
    rw [trimList, List.dropWhile_cons, hc]
    simp only [Bool.false_eq_true, if_false]
    have hrev : (c :: u).reverse.dropWhile isWS = (c :: u).reverse := by
      rcases hr : (c :: u).reverse with _ | ⟨d, ds⟩
      · exact absurd (List.reverse_eq_nil_iff.mp hr) (by simp)
      · have hd : (c :: u).getLast? = some d := by
          rw [← List.head?_reverse, hr]
          rfl
        rw [List.dropWhile_cons, h2 d hd]
        simp
    rw [hrev, List.reverse_reverse]

/-! Stage 2: a serialized token is recovered verbatim by the per-token
processing of the strict tokenizer. -/

theorem findEq_cons (c : Char) (rest : Str) (q e : Bool) :
    findEq (c :: rest) q e =
      if e then (findEq rest q false).map fun p => (c :: p.1, p.2)
      else if c = '\\' then (findEq rest q true).map fun p => (c :: p.1, p.2)
      else if c = '"' then (findEq rest (!q) false).map fun p => (c :: p.1, p.2)
      else if c = '=' ∧ ¬ q then some ([], rest)
      else (findEq rest q false).map fun p => (c :: p.1, p.2) := rfl

/-- Inside a token serialized from a valid key, the quote-aware `=` search
finds exactly the separator after the key. -/
theorem findEq_key (k : Str) (hall : ∀ c ∈ k, isKeyChar c = true) (rest : Str) :
    findEq (k ++ '=' :: rest) false false = some (k, rest) := by
  induction k with
  | nil =>
    rw [List.nil_append, findEq_cons, if_neg (by simp), if_neg (by decide),
      if_neg (by decide), if_pos ⟨rfl, by simp⟩]
  | cons c k' ih =>
    obtain ⟨h1, h2, _, h4, _, _⟩ := keyChar_facts c (hall c (by simp))
    rw [List.cons_append, findEq_cons, if_neg (by simp), if_neg h1, if_neg h2,
      if_neg fun hx => h4 hx.1,
      ih fun x hx => hall x (List.mem_cons_of_mem c hx)]
    rfl

theorem trimList_of_all_keyChar (k : Str)
    (hall : ∀ c ∈ k, isKeyChar c = true) : trimList k = k := by
  refine trimList_eq_self k ?_ ?_
  · intro c hc
    exact (keyChar_facts c (hall c (List.mem_of_mem_head? (by simp [hc])))).2.2.2.2.1
  · intro c hc
    exact (keyChar_facts c (hall c (List.mem_of_mem_getLast? (by simp [hc])))).2.2.2.2.1

/-- Processing a serialized bare token. -/
theorem processToken_bare (opts : ParseOptions) (k : Str)
    (hk : keyPattern k = true) :
    processToken opts k = ([], .ok (some ⟨k, none⟩)) := by
  have hfe := findEq_none_of_not_mem k false false (eq_not_mem_of_keyPattern k hk)
  simp [processToken, hfe, lowerStr_of_keyPattern k hk, hk]

/-- Processing a serialized `key=`-with-unquoted-value token. -/
theorem processToken_unquoted (opts : ParseOptions) (k v : Str)
    (hk : keyPattern k = true) (hv : v ≠ []) (hnq : needsQuotes v = false) :
    processToken opts (k ++ '=' :: v) = ([], .ok (some ⟨k, some v⟩)) := by
  have hall := (keyPattern_props k hk).2
  have hfe := findEq_key k hall v
  have hvfacts : ∀ c ∈ v, isWS c = false ∧ c ≠ ';' ∧ c ≠ '=' ∧ c ≠ '"' ∧ c ≠ '\\' := by
    intro c hc
    have := List.any_eq_false.mp hnq c hc
    simp only [Bool.or_eq_true, decide_eq_true_eq, not_or] at this
    obtain ⟨w1, w2, w3, w4, w5⟩ := this
    exact ⟨by simpa using w1, w2, w3, w4, w5⟩
  have htrimv : trimList v = v := by
    refine trimList_eq_self v ?_ ?_
    · intro c hc
      exact (hvfacts c (List.mem_of_mem_head? (by simp [hc]))).1
    · intro c hc
      exact (hvfacts c (List.mem_of_mem_getLast? (by simp [hc]))).1
  have htrimk := trimList_of_all_keyChar k hall
  have hhead : v.head? ≠ some '"' := by
    cases v with
    | nil => simp
    | cons c cs =>
      have := (hvfacts c (by simp)).2.2.2.1
      simp [this]
  simp only [processToken, hfe, htrimk, htrimv, hv, if_neg, hhead,
    lowerStr_of_keyPattern k hk, hk]
  simp [hv, hhead, hk]

/-- Processing a serialized quoted-value token. -/
theorem processToken_quoted (opts : ParseOptions) (k v : Str)
    (hk : keyPattern k = true) :
    processToken opts (k ++ '=' :: '"' :: (escapeQuoted v ++ ['"'])) =
      ([], .ok (some ⟨k, some v⟩)) := by
  have hall := (keyPattern_props k hk).2
  have hfe := findEq_key k hall ('"' :: (escapeQuoted v ++ ['"']))
  have htrimk := trimList_of_all_keyChar k hall
  have htrimv : trimList ('"' :: (escapeQuoted v ++ ['"'])) =
      '"' :: (escapeQuoted v ++ ['"']) := by
    refine trimList_eq_self _ ?_ ?_
    · intro c hc
      simp only [List.head?_cons, Option.some.injEq] at hc
      subst hc
      decide
    · intro c hc
      rw [show ('"' :: (escapeQuoted v ++ ['"'])) =
        ('"' :: escapeQuoted v) ++ ['"'] by simp, List.getLast?_concat] at hc
      simp only [Option.some.injEq] at hc
      subst hc
      decide
  have hlen : ¬ ('"' :: (escapeQuoted v ++ ['"'])).length < 2 := by
    simp [List.length_append]
  have hlast : ('"' :: (escapeQuoted v ++ ['"'])).getLast? = some '"' := by
    rw [show ('"' :: (escapeQuoted v ++ ['"'])) =
      ('"' :: escapeQuoted v) ++ ['"'] by simp, List.getLast?_concat]
  have hinner : (('"' :: (escapeQuoted v ++ ['"'])).drop 1).dropLast =
      escapeQuoted v := by
    simp [List.dropLast_concat]
  simp only [processToken, hfe, htrimk, htrimv, lowerStr_of_keyPattern k hk]
  simp [hlen, hlast, hinner, unescape_escape, hk]

/-- Every entry with a valid key and non-empty-string value serializes to a
token that the strict tokenizer recovers verbatim. -/
theorem serialized_token_facts (opts : ParseOptions) (e : RawEntry)
    (hk : keyPattern e.name = true) (hv : e.value ≠ some []) :
    ∃ t, serializeEntry e = some t ∧
      (∃ c cs, t = c :: cs ∧ isKeyChar c = true) ∧
      scanFree t false false = some (false, false) ∧
      trimList t = t ∧
      processToken opts t = ([], .ok (some e)) := by
  obtain ⟨name, value⟩ := e
  simp only at hk hv
  have hall := (keyPattern_props name hk).2
  obtain ⟨c, cs, hname⟩ : ∃ c cs, name = c :: cs := by
    rcases name with _ | ⟨c, cs⟩
    · exact absurd rfl (keyPattern_props _ hk).1
    · exact ⟨c, cs, rfl⟩
  have hchead : isKeyChar c = true := hall c (by rw [hname]; simp)
  cases value with
  | none =>
    refine ⟨name, by simp [serializeEntry, hk], ⟨c, cs, hname, hchead⟩, ?_, ?_, ?_⟩
    · exact scanFree_plain name fun x hx =>
        ⟨(keyChar_facts x (hall x hx)).1, (keyChar_facts x (hall x hx)).2.1,
          (keyChar_facts x (hall x hx)).2.2.1⟩
    · exact trimList_of_all_keyChar name hall
    · exact processToken_bare opts name hk
  | some v =>
    have hvne : v ≠ [] := fun hx => hv (by rw [hx])
    by_cases hnq : needsQuotes v = true
    · -- quoted form
      refine ⟨name ++ '=' :: '"' :: (escapeQuoted v ++ ['"']), ?_,
        ⟨c, cs ++ '=' :: '"' :: (escapeQuoted v ++ ['"']), by simp [hname], hchead⟩,
        ?_, ?_, ?_⟩
      · simp [serializeEntry, hk, hvne, hnq]
      · have h1 : scanFree (name ++ ['=']) false false = some (false, false) := by
          refine scanFree_plain _ fun x hx => ?_
          rcases List.mem_append.mp hx with hx | hx
          · exact ⟨(keyChar_facts x (hall x hx)).1, (keyChar_facts x (hall x hx)).2.1,
              (keyChar_facts x (hall x hx)).2.2.1⟩
          · simp only [List.mem_singleton] at hx
            subst hx
            exact ⟨by decide, by decide, by decide⟩
        have hsplit : name ++ '=' :: '"' :: (escapeQuoted v ++ ['"']) =
            (name ++ ['=']) ++ ('"' :: (escapeQuoted v ++ ['"'])) := by simp
        rw [hsplit, scanFree_append_free (name ++ ['=']) _ _ _ _ _ h1,
          scanFree_cons, if_neg (by simp), if_neg (by decide), if_pos rfl]
        simp only [Bool.not_false]
        rw [scanFree_append_free (escapeQuoted v) _ _ _ _ _ (scanFree_escaped v),
          scanFree_cons, if_neg (by simp), if_neg (by decide), if_pos rfl]
        rfl
      · refine trimList_eq_self _ ?_ ?_
        · intro x hx
          rw [hname] at hx
          simp only [List.cons_append, List.head?_cons, Option.some.injEq] at hx
          subst hx
          exact (keyChar_facts c hchead).2.2.2.2.1
        · intro x hx
          rw [show name ++ '=' :: '"' :: (escapeQuoted v ++ ['"']) =
            (name ++ '=' :: '"' :: escapeQuoted v) ++ ['"'] by simp,
            List.getLast?_concat] at hx
          simp only [Option.some.injEq] at hx
          subst hx
          decide
      · exact processToken_quoted opts name v hk
    · -- unquoted form
      rw [Bool.not_eq_true] at hnq
      refine ⟨name ++ '=' :: v, ?_,
        ⟨c, cs ++ '=' :: v, by simp [hname], hchead⟩, ?_, ?_, ?_⟩
      · simp [serializeEntry, hk, hvne, hnq]
      · refine scanFree_plain _ fun x hx => ?_
        rcases List.mem_append.mp hx with hx | hx
        · exact ⟨(keyChar_facts x (hall x hx)).1, (keyChar_facts x (hall x hx)).2.1,
            (keyChar_facts x (hall x hx)).2.2.1⟩
        · rcases List.mem_cons.mp hx with rfl | hx
          · exact ⟨by decide, by decide, by decide⟩
          · have := List.any_eq_false.mp hnq x hx
            simp only [Bool.or_eq_true, decide_eq_true_eq, not_or] at this
            exact ⟨this.2.2.2.2, this.2.2.2.1, this.2.1⟩
      · refine trimList_eq_self _ ?_ ?_
        · intro x hx
          rw [hname] at hx
          simp only [List.cons_append, List.head?_cons, Option.some.injEq] at hx
          subst hx
          exact (keyChar_facts c hchead).2.2.2.2.1
        · intro x hx
          rw [show name ++ '=' :: v = (name ++ ['=']) ++ v by simp,
            List.getLast?_append] at hx
          rcases hvx : v.getLast? with _ | d
          · rw [List.getLast?_eq_none_iff] at hvx
            exact absurd hvx hvne
          · rw [hvx] at hx
            simp only [Option.or_some, Option.some.injEq] at hx
            subst hx
            have hmem := List.mem_of_mem_getLast? (by simp [hvx] : d ∈ v.getLast?)
            have := List.any_eq_false.mp hnq _ hmem
            simp only [Bool.or_eq_true, decide_eq_true_eq, not_or] at this
            simpa using this.1
      · exact processToken_unquoted opts name v hk hvne hnq

/-! Stage 3: the tokenizer loop maps a serialized entry list back to itself. -/

theorem coreGo_nil (opts : ParseOptions) (fuel : Nat) (st : InternalState) :
    parseXMSCoreGo opts fuel [] st = (st, some []) := by
  cases fuel <;> rfl

/-- The serialized join of one good entry list is parsed back verbatim, with
no state change, given enough fuel. -/
theorem coreGo_serialized (opts : ParseOptions) : ∀ (es : List RawEntry)
    (fuel : Nat) (st : InternalState),
    (∀ e ∈ es, keyPattern e.name = true ∧ e.value ≠ some []) →
    (joinSemis (es.filterMap serializeEntry)).length < fuel →
    parseXMSCoreGo opts fuel (joinSemis (es.filterMap serializeEntry)) st =
      (st, some es) := by
  intro es
  induction es with
  | nil =>
    intro fuel st _ _
    simp only [List.filterMap_nil, joinSemis]
    exact coreGo_nil opts fuel st
  | cons e es' ih =>
    intro fuel st hgood hfuel
    have hke := (hgood e (by simp)).1
    have hve := (hgood e (by simp)).2
    obtain ⟨t, hser, ⟨c, cs, htc, hc⟩, hfree, htrim, hproc⟩ :=
      serialized_token_facts opts e hke hve
    have hcsemi : c ≠ ';' := (keyChar_facts c hc).2.2.1
    have hfm : (e :: es').filterMap serializeEntry =
        t :: es'.filterMap serializeEntry := by
      rw [List.filterMap_cons, hser]
    rw [hfm] at hfuel ⊢
    have htne : t.isEmpty = false := by rw [htc]; rfl
    rcases hes : es'.filterMap serializeEntry with _ | ⟨t', ts'⟩
    · have hes'nil : es' = [] := by
        rcases hx : es' with _ | ⟨e', es''⟩
        · rfl
        · exfalso
          obtain ⟨t2, hser2, _, _, _, _⟩ := serialized_token_facts opts e'
            (hgood e' (by rw [hx]; simp)).1 (hgood e' (by rw [hx]; simp)).2
          rw [hx, List.filterMap_cons, hser2] at hes
          cases hes
      subst hes'nil
      simp only [joinSemis] at hfuel ⊢
      rcases fuel with _ | f
      · exact absurd hfuel (Nat.not_lt_zero _)
      · have hdrop : t.dropWhile (· = ';') = t := by
          rw [htc, List.dropWhile_cons, if_neg (by simp [hcsemi])]
        have hscan := scanToken_run t false false false false hfree
        simp only [parseXMSCoreGo, hdrop, htne, hscan, htrim, hproc,
          coreGo_nil]
        simp
    · have hjoin : joinSemis (t :: t' :: ts') = t ++ ';' :: joinSemis (t' :: ts') :=
        rfl
      rw [hes] at hfuel
      rw [hjoin] at hfuel ⊢
      rcases fuel with _ | f
      · exact absurd hfuel (Nat.not_lt_zero _)
      · have hdrop : (t ++ ';' :: joinSemis (t' :: ts')).dropWhile (· = ';') =
            t ++ ';' :: joinSemis (t' :: ts') := by
          rw [htc, List.cons_append, List.dropWhile_cons, if_neg (by simp [hcsemi])]
        have htne2 : (t ++ ';' :: joinSemis (t' :: ts')).isEmpty = false := by
          rw [htc]
          rfl
        have hscan : scanToken (t ++ ';' :: joinSemis (t' :: ts')) false false =
            (t, ';' :: joinSemis (t' :: ts'), false) := by
          rw [scanFree_append_run t _ _ _ _ _ hfree, scanToken_cons,
            if_neg (by simp), if_neg (by decide), if_neg (by decide),
            if_pos ⟨rfl, by simp⟩]
          simp
        have hrec : parseXMSCoreGo opts f (joinSemis (es'.filterMap serializeEntry))
            st = (st, some es') := by
          refine ih f st (fun x hx => hgood x (List.mem_cons_of_mem _ hx)) ?_
          rw [hes]
          simp only [List.length_append, List.length_cons] at hfuel
          omega
        rw [hes] at hrec
        simp only [parseXMSCoreGo, hdrop, htne2, hscan, htrim, hproc]
        simp [hrec, htc]

theorem parseXMSCore_serialized (opts : ParseOptions) (es : List RawEntry)
    (hgood : ∀ e ∈ es, keyPattern e.name = true ∧ e.value ≠ some []) :
    parseXMSCore opts (';' :: joinSemis (es.filterMap serializeEntry)) ⟨[], []⟩ =
      (⟨[], []⟩, some es) := by
  rw [parseXMSCore]
  have hsemi : ∀ (f : Nat) (st : InternalState),
      parseXMSCoreGo opts (f + 1) (';' :: joinSemis (es.filterMap serializeEntry)) st =
      parseXMSCoreGo opts (f + 1) (joinSemis (es.filterMap serializeEntry)) st := by
    intro f st
    simp only [parseXMSCoreGo, List.dropWhile_cons]
    norm_num
  have hlen : (';' :: joinSemis (es.filterMap serializeEntry)).length =
      (joinSemis (es.filterMap serializeEntry)).length + 1 := rfl
  rw [hlen, hsemi]
  exact coreGo_serialized opts es _ ⟨[], []⟩ hgood (by omega)

/-! Stage 4: truncation is idempotent, version digits re-match, and the full
round trip assembles. -/

theorem truncEntry_fst_name (opts : ParseOptions) (e : RawEntry) :
    (truncEntry opts e).1.name = e.name := by
  rcases e with ⟨n, _ | v⟩
  · rfl
  · by_cases hE : opts.enforceLimits = true <;> simp [truncEntry, hE]

theorem limitFor_pos (k : Str) (L : Nat) (h : limitFor k = some L) : 0 < L := by
  unfold limitFor at h
  split_ifs at h <;> simp only [Option.some.injEq] at h <;> omega

theorem enforceLength_idem (k v : Str) :
    enforceLength k (enforceLength k v).1 = ((enforceLength k v).1, none) := by
  rcases hl : limitFor k with _ | L
  · simp [enforceLength, hl]
  · by_cases hlt : L < v.length
    · have hlen : (v.take L).length = L := by
        rw [List.length_take]
        omega
      simp [enforceLength, hl, hlt, hlen]
    · simp [enforceLength, hl, hlt]

theorem truncEntry_fst_idem (opts : ParseOptions) (e : RawEntry) :
    (truncEntry opts (truncEntry opts e).1).1 = (truncEntry opts e).1 := by
  rcases e with ⟨n, _ | v⟩
  · rfl
  · by_cases hE : opts.enforceLimits = true
    · simp [truncEntry, hE, enforceLength_idem]
    · simp [truncEntry, hE]

theorem truncEntry_value_good (opts : ParseOptions) (e : RawEntry)
    (hv : e.value ≠ some []) : (truncEntry opts e).1.value ≠ some [] := by
  rcases e with ⟨n, _ | v⟩
  · simp [truncEntry]
  · have hvne : v ≠ [] := by
      intro hx
      exact hv (by rw [hx])
    by_cases hE : opts.enforceLimits = true
    · simp only [truncEntry, hE, if_pos]
      rcases hl : limitFor n with _ | L
      · simpa [enforceLength, hl] using hvne
      · by_cases hlt : L < v.length
        · have hpos := limitFor_pos n L hl
          simp only [enforceLength, hl, hlt, if_pos]
          intro hx
          simp only [Option.some.injEq] at hx
          have := congrArg List.length hx
          rw [List.length_take] at this
          simp only [List.length_nil] at this
          omega
        · simpa [enforceLength, hl, hlt] using hvne
    · simpa [truncEntry, hE] using hv

theorem ingestEntry_trunc (opts : ParseOptions) (data : Fields) (e : RawEntry) :
    (ingestEntry opts data ((truncEntry opts e).1)).2.1 =
      (ingestEntry opts data e).2.1 := by
  simp only [ingestEntry, truncEntry_fst_idem, truncEntry_fst_name]

theorem ingest_data_of_trunc (opts : ParseOptions) : ∀ (es : List RawEntry)
    (data : Fields),
    (ingest opts (es.map fun e => (truncEntry opts e).1) data).2.1 =
      (ingest opts es data).2.1 := by
  intro es
  induction es with
  | nil => intro data; rfl
  | cons e es' ih =>
    intro data
    simp only [List.map_cons, ingest, ingestEntry_trunc]
    exact ih _

theorem natDigitsGo_spec : ∀ (fuel n : Nat), n < fuel →
    natDigitsGo fuel n ≠ [] ∧ ∀ c ∈ natDigitsGo fuel n, c.isDigit = true := by
  intro fuel
  induction fuel with
  | zero => intro n h; exact absurd h (Nat.not_lt_zero n)
  | succ f ih =>
    intro n h
    by_cases h10 : n < 10
    · refine ⟨by simp [natDigitsGo, h10], ?_⟩
      intro c hc
      simp only [natDigitsGo, h10, if_pos, List.mem_singleton] at hc
      subst hc
      interval_cases n <;> decide
    · have hdiv : n / 10 < f := by
        have h1 : 0 < n := by omega
        have := Nat.div_lt_self h1 (by omega : 1 < 10)
        omega
      obtain ⟨ih1, ih2⟩ := ih (n / 10) hdiv
      refine ⟨by simp [natDigitsGo, h10], ?_⟩
      intro c hc
      simp only [natDigitsGo, h10, if_neg, if_false, Bool.false_eq_true] at hc
      rcases List.mem_append.mp hc with hc | hc
      · exact ih2 c hc
      · have hmod : n % 10 < 10 := Nat.mod_lt _ (by omega)
        simp only [List.mem_singleton] at hc
        subst hc
        revert hmod
        generalize n % 10 = m
        intro hmod
        interval_cases m <;> decide

theorem natDigits_ne_nil (n : Nat) : natDigits n ≠ [] :=
  (natDigitsGo_spec (n + 1) n (by omega)).1

theorem natDigits_digits (n : Nat) : ∀ c ∈ natDigits n, c.isDigit = true :=
  (natDigitsGo_spec (n + 1) n (by omega)).2

theorem takeWhile_append_all (p : Char → Bool) (a b : Str)
    (ha : ∀ c ∈ a, p c = true) (hb : ∀ c, b.head? = some c → p c = false) :
    (a ++ b).takeWhile p = a ∧ (a ++ b).dropWhile p = b := by
  induction a with
  | nil =>
    simp only [List.nil_append]
    cases b with
    | nil => exact ⟨rfl, rfl⟩
    | cons c bs =>
      have := hb c rfl
      rw [List.takeWhile_cons, List.dropWhile_cons, this]
      simp
  | cons x a' ih =>
    have hx := ha x (by simp)
    obtain ⟨ih1, ih2⟩ := ih fun c hc => ha c (List.mem_cons_of_mem x hc)
    rw [List.cons_append, List.takeWhile_cons, List.dropWhile_cons, hx]
    simp [ih1, ih2]

theorem matchVersionHeader_header (v : Nat) (rest : Str) :
    matchVersionHeader (headerChars v ++ rest) =
      some (parseDigits (natDigits v), ';' :: rest) := by
  have hshape : headerChars v ++ rest =
      'x' :: 'm' :: 's' :: '/' :: (natDigits v ++ (';' :: rest)) := by
    simp [headerChars]
  rw [hshape]
  obtain ⟨ht, hd⟩ := takeWhile_append_all Char.isDigit (natDigits v) (';' :: rest)
    (natDigits_digits v) (fun c hc => by
      simp only [List.head?_cons, Option.some.injEq] at hc
      subst hc
      decide)
  simp [matchVersionHeader, ht, hd, natDigits_ne_nil v]

theorem toXMS_of_ne_zero (d : XMSDoc) (h : d.version ≠ 0) :
    toXMS d =
      headerChars d.version ++ joinSemis (d.entries.filterMap serializeEntry) := by
  rcases ht : d.entries.filterMap serializeEntry with _ | ⟨t, ts⟩
  · simp [toXMS, h, ht, joinSemis]
  · simp [toXMS, h, ht]

/-- C5, counterexample: the claim fails as stated.  `xms/1;k=""` parses to the
empty-string binding for `k`, serializes to `xms/1;k=`, and re-parses to the
*null* binding — a different flat value set.  A version-0 strict input
(`xms/0;…`) serializes without a header and re-parses under the legacy
tokenizer, splitting inside the formerly-quoted value. -/
theorem c5_counterexample :
    (parse "xms/1;k=\"\"".toList defaultOptions).entries = [⟨['k'], some []⟩] ∧
    (parse (toXMS (parse "xms/1;k=\"\"".toList defaultOptions))
      defaultOptions).entries = [⟨['k'], none⟩] ∧
    getA (parse "xms/1;k=\"\"".toList defaultOptions).data ['k'] =
      some (.strV []) ∧
    getA (parse (toXMS (parse "xms/1;k=\"\"".toList defaultOptions))
      defaultOptions).data ['k'] = some .nullV ∧
    (parse "xms/0;a=\"b;c\"".toList defaultOptions).entries =
      [⟨['a'], some "b;c".toList⟩] ∧
    (parse (toXMS (parse "xms/0;a=\"b;c\"".toList defaultOptions))
      defaultOptions).entries ≠ [⟨['a'], some "b;c".toList⟩] := by
  refine ⟨by decide, by decide, rfl, rfl, by decide, by decide⟩

/-- C5, amended: for well-formed strict input whose version is non-zero,
whose parsed keys all satisfy the key pattern (no dropped keys), and whose
parsed values include no empty string, `parse (toXMS (parse s))` reproduces
the same entry log and the same data bindings as `parse s`. -/
theorem c5_roundtrip (s : Str) (v : Nat) (body : Str) (st : InternalState)
    (es : List RawEntry)
    (h1 : matchVersionHeader s = some (v, body))
    (hv : v ≠ 0)
    (h2 : parseXMSCore defaultOptions body ⟨[], []⟩ = (st, some es))
    (h3 : ∀ e ∈ es, keyPattern e.name = true)
    (h4 : ∀ e ∈ es, e.value ≠ some []) :
    (parse (toXMS (parse s defaultOptions)) defaultOptions).entries =
      (parse s defaultOptions).entries ∧
    (parse (toXMS (parse s defaultOptions)) defaultOptions).data =
      (parse s defaultOptions).data := by
  have hparse1 : parse s defaultOptions = finishDoc defaultOptions v false es st := by
    simp [parse, h1, h2]
  have hent1 : (parse s defaultOptions).entries =
      es.map fun e => (truncEntry defaultOptions e).1 := by
    rw [hparse1]
    simp [finishDoc, ingest_entries]
  have hver1 : (parse s defaultOptions).version = v := by rw [hparse1]; rfl
  have hgood1 : ∀ e ∈ es.map fun e => (truncEntry defaultOptions e).1,
      keyPattern e.name = true ∧ e.value ≠ some [] := by
    intro e he
    obtain ⟨e0, he0, rfl⟩ := List.mem_map.mp he
    exact ⟨by rw [truncEntry_fst_name]; exact h3 e0 he0,
      truncEntry_value_good defaultOptions e0 (h4 e0 he0)⟩
  have htox : toXMS (parse s defaultOptions) =
      headerChars v ++ joinSemis ((es.map fun e =>
        (truncEntry defaultOptions e).1).filterMap serializeEntry) := by
    rw [toXMS_of_ne_zero (parse s defaultOptions) (by rw [hver1]; exact hv),
      hver1, hent1]
  have hm2 : matchVersionHeader (toXMS (parse s defaultOptions)) =
      some (parseDigits (natDigits v), ';' :: joinSemis ((es.map fun e =>
        (truncEntry defaultOptions e).1).filterMap serializeEntry)) := by
    rw [htox]
    exact matchVersionHeader_header v _
  have hc2 := parseXMSCore_serialized defaultOptions
    (es.map fun e => (truncEntry defaultOptions e).1) hgood1
  have hparse2 : parse (toXMS (parse s defaultOptions)) defaultOptions =
      finishDoc defaultOptions (parseDigits (natDigits v)) false
        (es.map fun e => (truncEntry defaultOptions e).1) ⟨[], []⟩ := by
    generalize hT : toXMS (parse s defaultOptions) = T at hm2
    have hc2' := hc2
    simp only [List.filterMap_map] at hc2'
    simp [parse, hm2, hc2']
  constructor
  · rw [hparse2, hent1]
    simp only [finishDoc, ingest_entries, List.map_map]
    exact List.map_congr_left fun e _ => truncEntry_fst_idem defaultOptions e
  · rw [hparse2, hparse1]
    simp only [finishDoc]
    exact ingest_data_of_trunc defaultOptions es []

/-! Fuel adequacy: the loop model is fuel-independent once the fuel exceeds
the body length, so `parseXMSCore`'s choice of `body.length + 1` is exact and
the fuel-0 fallback value is unreachable. -/

theorem scanToken_length : ∀ (s : Str) (q e : Bool),
    (scanToken s q e).1.length + (scanToken s q e).2.1.length = s.length := by
  intro s
  induction s with
  | nil => intro q e; rfl
  | cons c rest ih =>
    intro q e
    rw [scanToken_cons]
    split_ifs with h1 h2 h3 h4
    · simp only [List.length_cons]
      have := ih q false
      omega
    · simp only [List.length_cons]
      have := ih q true
      omega
    · simp only [List.length_cons]
      have := ih (!q) false
      omega
    · simp
    · simp only [List.length_cons]
      have := ih q false
      omega

theorem dropWhile_head_false (p : Char → Bool) : ∀ (l : Str) (c : Char) (t : Str),
    l.dropWhile p = c :: t → p c = false := by
  intro l
  induction l with
  | nil => intro c t h; cases h
  | cons a l' ih =>
    intro c t h
    rw [List.dropWhile_cons] at h
    by_cases hp : p a = true
    · rw [if_pos hp] at h
      exact ih c t h
    · rw [if_neg hp] at h
      injection h with h1 _
      subst h1
      rcases hpa : p a
      · rfl
      · exact absurd hpa hp

theorem scanToken_fst_cons (c : Char) (t : Str) (hc : c ≠ ';') :
    ∃ u, (scanToken (c :: t) false false).1 = c :: u := by
  rw [scanToken_cons]
  rw [if_neg (by simp)]
  by_cases h1 : c = '\\'
  · rw [if_pos h1]
    exact ⟨_, rfl⟩
  · rw [if_neg h1]
    by_cases h2 : c = '"'
    · rw [if_pos h2]
      exact ⟨_, rfl⟩
    · rw [if_neg h2, if_neg fun hx => hc hx.1]
      exact ⟨_, rfl⟩

theorem restDrop_le (r : Str) :
    (match r with | ';' :: t => t | t => t).length ≤ r.length := by
  rcases r with _ | ⟨c, t⟩
  · simp
  · split
    · next t' heq =>
        injection heq with h1 h2
        subst h2
        simp
    · next => simp

theorem coreGo_fuel (opts : ParseOptions) : ∀ (n : Nat) (body : Str)
    (st : InternalState) (f g : Nat), body.length ≤ n → n < f → n < g →
    parseXMSCoreGo opts f body st = parseXMSCoreGo opts g body st := by
  intro n
  induction n with
  | zero =>
    intro body st f g hlen hf hg
    have hb : body = [] := List.length_eq_zero.mp (Nat.le_zero.mp hlen)
    subst hb
    rw [coreGo_nil, coreGo_nil]
  | succ n ih =>
    intro body st f g hlen hf hg
    rcases f with _ | f'
    · omega
    rcases g with _ | g'
    · omega
    have hf' : n < f' := by omega
    have hg' : n < g' := by omega
    by_cases he : (body.dropWhile (· = ';')).isEmpty
    · simp only [parseXMSCoreGo, he, if_pos]
    · rcases hS : scanToken (body.dropWhile (· = ';')) false false with ⟨tok, rest0, inq⟩
      have hslen : (body.dropWhile (· = ';')).length ≤ body.length :=
        (List.dropWhile_sublist _).length_le
      obtain ⟨c, t, hsd⟩ : ∃ c t, body.dropWhile (· = ';') = c :: t := by
        rcases hx : body.dropWhile (· = ';') with _ | ⟨c, t⟩
        · rw [hx] at he
          exact absurd rfl he
        · exact ⟨c, t, rfl⟩
      have hcne : c ≠ ';' := by
        have := dropWhile_head_false _ body c t hsd
        simpa using this
      have htok : ∃ u, tok = c :: u := by
        obtain ⟨u, hu⟩ := scanToken_fst_cons c t hcne
        rw [← hsd, hS] at hu
        exact ⟨u, hu⟩
      have hrest0 : rest0.length ≤ n := by
        have hl := scanToken_length (body.dropWhile (· = ';')) false false
        rw [hS, hsd] at hl
        obtain ⟨u, hu⟩ := htok
        rw [hsd] at hslen
        simp only [hu, List.length_cons] at hl
        simp only [List.length_cons] at hslen
        omega
      have hrest : (match rest0 with | ';' :: t => t | t => t).length ≤ n :=
        le_trans (restDrop_le rest0) hrest0
      simp only [parseXMSCoreGo, he, hS]
      by_cases hq : inq = true
      · simp only [hq, if_pos]
      · simp only [hq, Bool.false_eq_true, if_false]
        by_cases ht : (trimList tok).isEmpty
        · simp only [ht, if_pos]
          exact ih _ _ f' g' hrest hf' hg'
        · simp only [ht, Bool.false_eq_true, if_false]
          rcases hpr : processToken opts (trimList tok) with ⟨ws, res⟩
          simp only [hpr]
          cases res with
          | error msg => rfl
          | ok oe =>
            cases oe with
            | none => exact ih _ _ f' g' hrest hf' hg'
            | some e => rw [ih _ _ f' g' hrest hf' hg']

/-- The fuel chosen by `parseXMSCore` is always sufficient: with any fuel
exceeding the body length the loop computes the same result, so the fuel-0
default is never observed. -/
theorem parseXMSCoreGo_fuel (opts : ParseOptions) (body : Str)
    (st : InternalState) (f : Nat) (hf : body.length < f) :
    parseXMSCoreGo opts f body st = parseXMSCore opts body st := by
  rw [parseXMSCore]
  exact coreGo_fuel opts body.length body st f (body.length + 1)
    (le_refl _) hf (by omega)

/-- C5, witness: `c5_roundtrip` at a concrete strict input exercising bare,
unquoted and quoted-with-`;` values. -/
theorem c5_witness :
    (parse (toXMS (parse "xms/1;a=hello;b=\"x;y\";c".toList defaultOptions))
      defaultOptions).entries =
      (parse "xms/1;a=hello;b=\"x;y\";c".toList defaultOptions).entries ∧
    (parse (toXMS (parse "xms/1;a=hello;b=\"x;y\";c".toList defaultOptions))
      defaultOptions).data =
      (parse "xms/1;a=hello;b=\"x;y\";c".toList defaultOptions).data := by
  exact c5_roundtrip "xms/1;a=hello;b=\"x;y\";c".toList 1
    ";a=hello;b=\"x;y\";c".toList ⟨[], []⟩
    [⟨['a'], some "hello".toList⟩, ⟨['b'], some "x;y".toList⟩, ⟨['c'], none⟩]
    (by decide) (by decide) (by decide) (by decide) (by decide)

end XMS

